import Mathlib

/-!
Verification of the static call-graph analyzer of the `Script` repository
(`Execution_diagram.py`, plain variant, and `Execution_diagram_iteration.py`,
sequenced variant).

The Python source is shallowly embedded: the fragment of the Python abstract
syntax tree the analyzer inspects is modelled by `Expr` and `Stmt`; Python
dictionaries are modelled by insertion-ordered association lists (`dictGet`,
`dictSet`); Python sets by deduplicating insertion lists (`setInsert`);
`ast.parse` is the external parser, so a source file is presented to the
analyzer together with the outcome of parsing its text (`PyFile`); the
external `importlib.util.find_spec` lookup is a parameter of the functions
that consume it.  Exceptions are modelled with `Except`: the repository code
contains no try/except around `ast.parse`, so a parse failure propagates.
-/

set_option autoImplicit false

/-- The fragment of Python expressions the analyzer inspects: `ast.Name`,
`ast.Attribute`, `ast.Call`; every other expression shape (literals,
subscripts, ...) is collapsed into `other`, which the visitor ignores. -/
inductive Expr where
  | name (id : String)
  | attribute (value : Expr) (attr : String)
  | call (func : Expr) (args : List Expr)
  | other

/-- The fragment of Python statements the analyzer inspects: `ast.Import`,
`ast.ImportFrom`, `ast.FunctionDef`, `ast.ClassDef`, and expression
statements (which is where call expressions reach the visitor). -/
inductive Stmt where
  | importS (names : List String)
  | importFrom (module : Option String) (names : List String)
  | funcDef (name : String) (body : List Stmt)
  | classDef (name : String) (body : List Stmt)
  | exprStmt (e : Expr)

/-- A Python module (`ast.Module`) is its list of top-level statements. -/
abbrev PyModule := List Stmt

/-- A source file as presented to the analyzer: its path together with the
outcome of the external parser `ast.parse` on its text — a module AST, or a
`SyntaxError` message. -/
structure PyFile where
  path : String
  parsed : Except String PyModule

/-- `os.path.abspath`, an external path canonicalization; modelled as the
identity on the already-canonical path strings of the embedding. -/
def os_path_abspath (p : String) : String := p

/-- Lookup in a Python dictionary modelled as an insertion-ordered
association list (`d[k]`, `d.get(k)`). -/
def dictGet {β : Type} : List (String × β) → String → Option β
  | [], _ => none
  | p :: rest, k => if p.1 = k then some p.2 else dictGet rest k

/-- Assignment `d[k] = v` on a Python dictionary: an existing key keeps its
position and gets the new value, a fresh key is appended (Python dicts are
insertion-ordered). -/
def dictSet {β : Type} : List (String × β) → String → β → List (String × β)
  | [], k, v => [(k, v)]
  | p :: rest, k, v => if p.1 = k then (k, v) :: rest else p :: dictSet rest k v

/-- `k in d` on a Python dictionary. -/
def dictMem {β : Type} (d : List (String × β)) (k : String) : Prop :=
  (dictGet d k).isSome = true

instance {β : Type} (d : List (String × β)) (k : String) : Decidable (dictMem d k) := by
  unfold dictMem; infer_instance

/-- `d.values()` on a Python dictionary. -/
def dictValues {β : Type} (d : List (String × β)) : List β := d.map (·.2)

/-- `d.keys()` on a Python dictionary. -/
def dictKeys {β : Type} (d : List (String × β)) : List String := d.map (·.1)

/-- `s.add(x)` on a Python set modelled as a deduplicating insertion list. -/
def setInsert {α : Type} [DecidableEq α] (x : α) (s : List α) : List α :=
  if x ∈ s then s else s ++ [x]

mutual
/-- Size of a statement, used as the termination measure of the
breadth-first walk. -/
def stmtSize : Stmt → Nat
  | .importS _ => 1
  | .importFrom _ _ => 1
  | .funcDef _ body => 1 + stmtListSize body
  | .classDef _ body => 1 + stmtListSize body
  | .exprStmt _ => 1

/-- Total size of a list of statements. -/
def stmtListSize : List Stmt → Nat
  | [] => 0
  | s :: rest => stmtSize s + stmtListSize rest
end

/-- The statement children of a statement node (`ast.iter_child_nodes`,
restricted to statement children: only class and function bodies contain
further statements). -/
def stmtChildren : Stmt → List Stmt
  | .funcDef _ body => body
  | .classDef _ body => body
  | _ => []

theorem stmtListSize_append (a b : List Stmt) :
    stmtListSize (a ++ b) = stmtListSize a + stmtListSize b := by
  induction a with
  | nil => simp [stmtListSize]
  | cons s rest ih => simp [stmtListSize, ih, Nat.add_assoc]

theorem stmtChildren_size_lt (s : Stmt) : stmtListSize (stmtChildren s) < stmtSize s := by
  cases s <;> simp [stmtChildren, stmtSize, stmtListSize]

/-- `ast.walk`: breadth-first enumeration of all (statement) nodes, by the
standard worklist algorithm — pop the front node, yield it, and append its
children at the back of the queue. -/
def walkList : List Stmt → List Stmt
  | [] => []
  | node :: rest => node :: walkList (rest ++ stmtChildren node)
termination_by todo => stmtListSize todo
decreasing_by
  simp only [stmtListSize, stmtListSize_append]
  exact lt_of_lt_of_le (Nat.add_lt_add_left (stmtChildren_size_lt _) _)
    (Nat.le_of_eq (Nat.add_comm _ _))

/-- `'.'.join(parts)` where `parts` is accumulated by the while loop of
`get_attribute_name`: walking from the outermost attribute inward, each
attribute name is inserted at the front (`parts.insert(0, node.attr)`), and
the base identifier is prepended when the chain bottoms out at a `Name`
node (otherwise the base contributes nothing). -/
def collectParts : Expr → List String → List String
  | .attribute v a, parts => collectParts v (a :: parts)
  | .name i, parts => i :: parts
  | _, parts => parts

/-- `get_attribute_name` of both visitor classes: recursively extract the
full dotted name from an `ast.Attribute` node. -/
def get_attribute_name (e : Expr) : String :=
  String.intercalate "." (collectParts e [])

/-- `get_func_name` of both visitor classes: the name of the callable of a
`Call` node, read off its `func` field — the identifier for a `Name`
callee, the joined dotted chain for an `Attribute` callee, `None` for any
other shape (including a call node itself as receiver). -/
def get_func_name : Expr → Option String
  | .call (.name id) _ => some id
  | .call (.attribute v a) _ => some (get_attribute_name (.attribute v a))
  | _ => none

/-- The fixed tuple of recognized output functions
(`('print', 'logging.info', 'logging.debug', 'logging.error')`). -/
def output_functions : List String :=
  ["print", "logging.info", "logging.debug", "logging.error"]

/-- One step of `build_function_to_file_map`'s walk loop: process one walked
node — a `FunctionDef` anywhere registers its bare name, a `ClassDef`
registers the class name and, for every `FunctionDef` directly in its body,
the qualified `Class.Method` name. -/
def walkEntry (file_path : String) (d : List (String × String)) :
    Stmt → List (String × String)
  | .funcDef func_name _ => dictSet d func_name (os_path_abspath file_path)
  | .classDef class_name body =>
      let d1 := dictSet d class_name (os_path_abspath file_path)
      body.foldl (fun acc body_item =>
        match body_item with
        | .funcDef method_name _ =>
            dictSet acc (class_name ++ "." ++ method_name) (os_path_abspath file_path)
        | _ => acc) d1
  | _ => d

namespace ExecutionDiagram

/-- The state of `ExecutionFlowVisitor` of `Execution_diagram.py`: the
collected per-file data.  Sets are modelled as deduplicating insertion
lists, the function-to-file dictionary as an association list. -/
structure VState where
  filename : String
  func_to_file : List (String × String)
  imports : List (String × String)
  function_calls : List (String × String)
  outputs : List String
  classes : List String
  functions : List String
  current_class : Option String
  current_function : Option String

/-- `ExecutionFlowVisitor.__init__`. -/
def initVisitor (filename : String) (func_to_file : List (String × String)) : VState :=
  { filename := os_path_abspath filename
    func_to_file := func_to_file
    imports := []
    function_calls := []
    outputs := []
    classes := []
    functions := []
    current_class := none
    current_function := none }

/-- `find_callee_file`: look the resolved name up in `func_to_file`. -/
def find_callee_file (st : VState) (func_name : String) : Option String :=
  dictGet st.func_to_file func_name

/-- The body of `visit_Call` before `generic_visit`: resolve the callable's
name; on success (a non-empty name), record a cross-file call edge when the
callee's file is known and differs from the current file, and record the
name as an output usage when it is a recognized output function.  The
emptiness guards mirror Python truthiness (`if func_name:`,
`if callee_file and ...`). -/
def process_call (st : VState) (node : Expr) : VState :=
  match get_func_name node with
  | none => st
  | some func_name =>
    if func_name = "" then st
    else
      let st1 :=
        match find_callee_file st func_name with
        | some callee_file =>
            if callee_file ≠ "" ∧ callee_file ≠ st.filename then
              { st with function_calls :=
                  setInsert (st.filename, callee_file) st.function_calls }
            else st
        | none => st
      if func_name ∈ output_functions then
        { st1 with outputs := setInsert func_name st1.outputs }
      else st1

/-- The loop of `visit_Import`: add `(this file, alias.name)` per alias. -/
def visit_import_aliases (st : VState) (names : List String) : VState :=
  names.foldl (fun s n => { s with imports := setInsert (s.filename, n) s.imports }) st

/-- The loop of `visit_ImportFrom`: add `(this file, module.alias)` per
alias, falling back to the bare alias when the module is absent or empty
(Python truthiness of `if module`). -/
def visit_importFrom_aliases (st : VState) (module : Option String)
    (names : List String) : VState :=
  names.foldl (fun s n =>
    let imported_module :=
      match module with
      | some m => if m = "" then n else m ++ "." ++ n
      | none => n
    { s with imports := setInsert (s.filename, imported_module) s.imports }) st

mutual
/-- Traversal of one expression node: `visit_Call` fires on `Call` nodes and
then `generic_visit` descends into the callable and the arguments; other
expression shapes are only descended into. -/
def visitExpr (st : VState) : Expr → VState
  | .name _ => st
  | .attribute v _ => visitExpr st v
  | .call f args => visitExprs (visitExpr (process_call st (.call f args)) f) args
  | .other => st

/-- Traversal of a list of expression nodes in order. -/
def visitExprs (st : VState) : List Expr → VState
  | [] => st
  | e :: rest => visitExprs (visitExpr st e) rest
end

mutual
/-- Traversal of one statement node, dispatching to `visit_Import`,
`visit_ImportFrom`, `visit_ClassDef`, `visit_FunctionDef`, or descending
into a contained expression.  `visit_ClassDef` records the class name, sets
the single-slot `current_class` context, visits the body, and resets the
context to `None`; `visit_FunctionDef` records the name in the top-level
function set only when `current_class is None`, then visits the body. -/
def visitStmt (st : VState) : Stmt → VState
  | .importS names => visit_import_aliases st names
  | .importFrom module names => visit_importFrom_aliases st module names
  | .classDef class_name body =>
      let st1 := { st with classes := setInsert class_name st.classes
                           current_class := some class_name }
      let st2 := visitStmts st1 body
      { st2 with current_class := none }
  | .funcDef function_name body =>
      let st1 :=
        if st.current_class.isNone then
          { st with functions := setInsert function_name st.functions }
        else st
      visitStmts st1 body
  | .exprStmt e => visitExpr st e

/-- Traversal of a list of statement nodes in order (`generic_visit` on a
block of statements). -/
def visitStmts (st : VState) : List Stmt → VState
  | [] => st
  | s :: rest => visitStmts (visitStmt st s) rest
end

/-- `parse_file`: parse one file and run the visitor over its AST.  The
source wraps `ast.parse` in no handler, so a `SyntaxError` propagates as an
`Except.error`. -/
def parse_file (fp : PyFile) (func_to_file : List (String × String)) :
    Except String VState :=
  match fp.parsed with
  | .error e => .error e
  | .ok tree => .ok (visitStmts (initVisitor fp.path func_to_file) tree)

/-- `build_function_to_file_map`: fold `ast.walk` of every file's tree into
one shared dictionary.  `ast.parse` is unguarded here too, so the first
syntactically invalid file aborts the build with its error. -/
def build_function_to_file_map_aux (d : List (String × String)) :
    List PyFile → Except String (List (String × String))
  | [] => .ok d
  | fp :: rest =>
      match fp.parsed with
      | .error e => .error e
      | .ok tree =>
          build_function_to_file_map_aux ((walkList tree).foldl (walkEntry fp.path) d) rest

/-- `build_function_to_file_map` of `Execution_diagram.py`. -/
def build_function_to_file_map (py_files : List PyFile) :
    Except String (List (String × String)) :=
  build_function_to_file_map_aux [] py_files

/-- The per-file loop of `analyze_project`: parse each file and store its
visitor under the file's absolute path. -/
def analyze_files (func_to_file : List (String × String))
    (visitors : List (String × VState)) :
    List PyFile → Except String (List (String × VState))
  | [] => .ok visitors
  | fp :: rest =>
      match parse_file fp func_to_file with
      | .error e => .error e
      | .ok visitor =>
          analyze_files func_to_file
            (dictSet visitors (os_path_abspath fp.path) visitor) rest

/-- `analyze_project`: build the function-to-file map over the full file
set, then parse each file with it.  The file list is the output of the
external `os.walk` discovery. -/
def analyze_project (py_files : List PyFile) :
    Except String (List (String × VState)) :=
  match build_function_to_file_map py_files with
  | .error e => .error e
  | .ok func_to_file => analyze_files func_to_file [] py_files

/-- The result of the external `importlib.util.find_spec`: a spec with an
optional `origin` path, no spec, or a raised `ModuleNotFoundError`. -/
abbrev FindSpec := String → Except Unit (Option (Option String))

/-- `find_source_file`: query the host module-search mechanism and accept
only specs whose origin is a source file; a `ModuleNotFoundError` is caught
and yields `None`. -/
def find_source_file (find_spec : FindSpec) (module_name : String) : Option String :=
  match find_spec module_name with
  | .error _ => none
  | .ok spec =>
      match spec with
      | some origin =>
          match origin with
          | some o => if o.endsWith ".py" then some (os_path_abspath o) else none
          | none => none
      | none => none

/-- The import-edge loop of `create_execution_diagram`: for every collected
module import, resolve the module name and add an edge only when it
resolves to a file of the analyzed set (Python truthiness of `if imported_file` kept as a
non-emptiness guard). -/
def import_edges (find_spec : FindSpec) (visitors : List (String × VState)) :
    List (String × String) :=
  (dictValues visitors).flatMap (fun visitor =>
    visitor.imports.filterMap (fun im =>
      match find_source_file find_spec im.2 with
      | some imported_file =>
          if imported_file ≠ "" ∧ dictMem visitors imported_file then
            some (im.1, imported_file)
          else none
      | none => none))

/-- The call-edge loop of `create_execution_diagram`: one `calls` edge per
pair recorded in a visitor's `function_calls` set whose callee is in the
analyzed set. -/
def call_edges (visitors : List (String × VState)) : List (String × String) :=
  (dictValues visitors).flatMap (fun visitor =>
    visitor.function_calls.filter (fun e => e.2 ≠ "" ∧ dictMem visitors e.2))

end ExecutionDiagram

namespace ExecutionDiagramIteration

/-- The state of `ExecutionFlowVisitor` of `Execution_diagram_iteration.py`.
In addition to the plain variant's fields it carries
`calls_with_sequence`, the list of `(sequence_number, caller_file,
callee_file)` triples, and `counter`, the value of the module-global
`call_sequence_counter` (threaded explicitly through the run). -/
structure ItState where
  filename : String
  func_to_file : List (String × String)
  imports : List (String × String)
  function_calls : List (String × String)
  outputs : List String
  classes : List String
  functions : List String
  current_class : Option String
  current_function : Option String
  calls_with_sequence : List (Nat × String × String)
  counter : Nat

/-- `ExecutionFlowVisitor.__init__` of the sequenced variant; the counter
field holds the global counter's value when the visitor starts. -/
def initVisitor (filename : String) (func_to_file : List (String × String))
    (counter : Nat) : ItState :=
  { filename := os_path_abspath filename
    func_to_file := func_to_file
    imports := []
    function_calls := []
    outputs := []
    classes := []
    functions := []
    current_class := none
    current_function := none
    calls_with_sequence := []
    counter := counter }

/-- `find_callee_file` of the sequenced variant. -/
def find_callee_file (st : ItState) (func_name : String) : Option String :=
  dictGet st.func_to_file func_name

/-- The body of `visit_Call` of the sequenced variant before
`generic_visit`: on a resolvable cross-file call, increment the global
counter and append the stamped triple; then the output-function check. -/
def process_call (st : ItState) (node : Expr) : ItState :=
  match get_func_name node with
  | none => st
  | some func_name =>
    if func_name = "" then st
    else
      let st1 :=
        match find_callee_file st func_name with
        | some callee_file =>
            if callee_file ≠ "" ∧ callee_file ≠ st.filename then
              { st with counter := st.counter + 1
                        calls_with_sequence := st.calls_with_sequence ++
                          [(st.counter + 1, st.filename, callee_file)] }
            else st
        | none => st
      if func_name ∈ output_functions then
        { st1 with outputs := setInsert func_name st1.outputs }
      else st1

/-- The loop of `visit_Import` of the sequenced variant. -/
def visit_import_aliases (st : ItState) (names : List String) : ItState :=
  names.foldl (fun s n => { s with imports := setInsert (s.filename, n) s.imports }) st

/-- The loop of `visit_ImportFrom` of the sequenced variant. -/
def visit_importFrom_aliases (st : ItState) (module : Option String)
    (names : List String) : ItState :=
  names.foldl (fun s n =>
    let imported_module :=
      match module with
      | some m => if m = "" then n else m ++ "." ++ n
      | none => n
    { s with imports := setInsert (s.filename, imported_module) s.imports }) st

mutual
/-- Expression traversal of the sequenced variant. -/
def visitExpr (st : ItState) : Expr → ItState
  | .name _ => st
  | .attribute v _ => visitExpr st v
  | .call f args => visitExprs (visitExpr (process_call st (.call f args)) f) args
  | .other => st

/-- Expression-list traversal of the sequenced variant. -/
def visitExprs (st : ItState) : List Expr → ItState
  | [] => st
  | e :: rest => visitExprs (visitExpr st e) rest
end

mutual
/-- Statement traversal of the sequenced variant (identical control flow to
the plain variant). -/
def visitStmt (st : ItState) : Stmt → ItState
  | .importS names => visit_import_aliases st names
  | .importFrom module names => visit_importFrom_aliases st module names
  | .classDef class_name body =>
      let st1 := { st with classes := setInsert class_name st.classes
                           current_class := some class_name }
      let st2 := visitStmts st1 body
      { st2 with current_class := none }
  | .funcDef function_name body =>
      let st1 :=
        if st.current_class.isNone then
          { st with functions := setInsert function_name st.functions }
        else st
      visitStmts st1 body
  | .exprStmt e => visitExpr st e

/-- Statement-list traversal of the sequenced variant. -/
def visitStmts (st : ItState) : List Stmt → ItState
  | [] => st
  | s :: rest => visitStmts (visitStmt st s) rest
end

/-- `parse_file` of the sequenced variant, threading the global counter in
and out through the visitor state. -/
def parse_file (fp : PyFile) (func_to_file : List (String × String))
    (counter : Nat) : Except String ItState :=
  match fp.parsed with
  | .error e => .error e
  | .ok tree => .ok (visitStmts (initVisitor fp.path func_to_file counter) tree)

/-- `build_function_to_file_map` of `Execution_diagram_iteration.py`; the
source duplicates the plain variant's function verbatim. -/
def build_function_to_file_map (py_files : List PyFile) :
    Except String (List (String × String)) :=
  ExecutionDiagram.build_function_to_file_map py_files

/-- The per-file loop of `analyze_project` of the sequenced variant; the
global counter flows from each file's analysis into the next. -/
def analyze_files (func_to_file : List (String × String))
    (visitors : List (String × ItState)) (counter : Nat) :
    List PyFile → Except String (List (String × ItState))
  | [] => .ok visitors
  | fp :: rest =>
      match parse_file fp func_to_file counter with
      | .error e => .error e
      | .ok visitor =>
          analyze_files func_to_file
            (dictSet visitors (os_path_abspath fp.path) visitor) visitor.counter rest

/-- `analyze_project` of the sequenced variant: the module-global
`call_sequence_counter` starts each run at `0`. -/
def analyze_project (py_files : List PyFile) :
    Except String (List (String × ItState)) :=
  match build_function_to_file_map py_files with
  | .error e => .error e
  | .ok func_to_file => analyze_files func_to_file [] 0 py_files

/-- Insertion of one triple into a list sorted ascending by sequence
number, keeping insertion order among equal keys (stability of Python's
`list.sort`). -/
def insertBySeq (x : Nat × String × String) :
    List (Nat × String × String) → List (Nat × String × String)
  | [] => [x]
  | y :: rest => if x.1 < y.1 then x :: y :: rest else y :: insertBySeq x rest

/-- `all_calls_with_sequence.sort(key=lambda x: x[0])`: a stable ascending
sort by sequence number. -/
def sortBySeq (l : List (Nat × String × String)) : List (Nat × String × String) :=
  l.foldr insertBySeq []

/-- All recorded calls of a run, gathered over `visitors.values()` in
insertion (= file processing) order. -/
def all_calls_with_sequence (visitors : List (String × ItState)) :
    List (Nat × String × String) :=
  (dictValues visitors).flatMap (·.calls_with_sequence)

/-- The call-edge emission of `create_execution_diagram` of the sequenced
variant: gather every visitor's stamped calls, sort ascending by sequence
number, and emit one labeled edge per triple whose callee is in the
analyzed set. -/
def call_edges (visitors : List (String × ItState)) :
    List (Nat × String × String) :=
  (sortBySeq (all_calls_with_sequence visitors)).filter
    (fun e => e.2.2 ≠ "" ∧ dictMem visitors e.2.2)

end ExecutionDiagramIteration

mutual
/-- All statement nodes of the subtree rooted at a statement, in
depth-first order: the node itself, then the subtrees of its body.  Used
to state which nodes `ast.walk` reaches. -/
def subStmts : Stmt → List Stmt
  | .funcDef n body => .funcDef n body :: subStmtsList body
  | .classDef n body => .classDef n body :: subStmtsList body
  | .importS ns => [.importS ns]
  | .importFrom m ns => [.importFrom m ns]
  | .exprStmt e => [.exprStmt e]

/-- All statement nodes of the subtrees of a list of statements. -/
def subStmtsList : List Stmt → List Stmt
  | [] => []
  | s :: rest => subStmts s ++ subStmtsList rest
end

/-- The dictionary keys one walked node contributes in
`build_function_to_file_map`: the bare name of a `FunctionDef`, and for a
`ClassDef` its name plus `Class.Method` for each `FunctionDef` directly in
its body. -/
def stmtDefines : Stmt → List String
  | .funcDef n _ => [n]
  | .classDef c body =>
      c :: body.filterMap (fun body_item =>
        match body_item with
        | .funcDef m _ => some (c ++ "." ++ m)
        | _ => none)
  | _ => []

/-- All dictionary keys `build_function_to_file_map` records for one
module: the contributions of every node of its `ast.walk`. -/
def moduleKeys (m : PyModule) : List String :=
  (walkList m).flatMap stmtDefines

/-- The keys a file contributes (none when it does not parse; the build in
fact aborts on such a file). -/
def fileKeys (fp : PyFile) : List String :=
  match fp.parsed with
  | .ok m => moduleKeys m
  | .error _ => []

/-- The file a name is expected to map to under last-writer-wins: the last
file of the list whose keys contain the name. -/
def lastDefiner : List PyFile → String → Option String
  | [], _ => none
  | fp :: rest, k =>
      match lastDefiner rest k with
      | some f => some f
      | none => if k ∈ fileKeys fp then some (os_path_abspath fp.path) else none

/-- The dotted attribute chain `base.p₁.p₂...pₙ` as an expression. -/
def mkChain (base : String) (parts : List String) : Expr :=
  parts.foldl .attribute (.name base)

/-- The whole plain-variant program run on a file set: `analyze_project`
followed by the call-edge emission of `create_execution_diagram` (the empty
list when the run aborts with an uncaught parse error). -/
def main_call_edges (py_files : List PyFile) : List (String × String) :=
  match ExecutionDiagram.analyze_project py_files with
  | .ok visitors => ExecutionDiagram.call_edges visitors
  | .error _ => []

/-- The whole sequenced-variant program run on a file set: the emitted
numbered call edges. -/
def main_call_edges_seq (py_files : List PyFile) : List (Nat × String × String) :=
  match ExecutionDiagramIteration.analyze_project py_files with
  | .ok visitors => ExecutionDiagramIteration.call_edges visitors
  | .error _ => []

/-- Demo file that parses: `def f(): pass`. -/
def demoGoodFile : PyFile := ⟨"good.py", .ok [.funcDef "f" []]⟩

/-- Demo file whose text is syntactically invalid: `ast.parse` raises a
`SyntaxError` with this message. -/
def demoBadFile : PyFile := ⟨"bad.py", .error "invalid syntax (bad.py, line 1)"⟩

/-- File defining `class Worker` with method `run`, at a given path. -/
def workerDefFile (pa : String) : PyFile :=
  ⟨pa, .ok [.classDef "Worker" [.funcDef "run" []]]⟩

/-- File whose body is the single call `Worker().run()`, at a given path. -/
def workerCallFile (pb : String) : PyFile :=
  ⟨pb, .ok [.exprStmt (.call (.attribute (.call (.name "Worker") []) "run") [])]⟩

/-- Demo file for the symbol table: `class C:` with method `m`. -/
def demoClassFile : PyFile := ⟨"c.py", .ok [.classDef "C" [.funcDef "m" []]]⟩

/-- Demo run for the sequenced variant: `a.py` defines `fa`; `b.py` calls
`fa()` then `fc()`; `c.py` defines `fc`, whose body calls `fa()`. -/
def demoSeqFiles : List PyFile :=
  [⟨"a.py", .ok [.funcDef "fa" []]⟩,
   ⟨"b.py", .ok [.exprStmt (.call (.name "fa") []), .exprStmt (.call (.name "fc") [])]⟩,
   ⟨"c.py", .ok [.funcDef "fc" [.exprStmt (.call (.name "fa") [])]]⟩]

/-- Demo run with two distinct call sites resolving to the same callee:
`a.py` defines `helper`; `b.py` calls `helper()` twice. -/
def demoDoubleCallFiles : List PyFile :=
  [⟨"a.py", .ok [.funcDef "helper" []]⟩,
   ⟨"b.py", .ok [.exprStmt (.call (.name "helper") []),
                 .exprStmt (.call (.name "helper") [])]⟩]

/-- The visitor dictionary of the sequenced-variant demo run. -/
def demoSeqRun : List (String × ExecutionDiagramIteration.ItState) :=
  match ExecutionDiagramIteration.analyze_project demoSeqFiles with
  | .ok vs => vs
  | .error _ => []

/-- The visitor dictionary of the plain-variant run on the single demo
file. -/
def demoGoodRun : List (String × ExecutionDiagram.VState) :=
  match ExecutionDiagram.analyze_project [demoGoodFile] with
  | .ok vs => vs
  | .error _ => []

/-- The visitor dictionary of the plain-variant run on the two
`Worker` demo files. -/
def demoWorkerRun : List (String × ExecutionDiagram.VState) :=
  match ExecutionDiagram.analyze_project [workerDefFile "a.py", workerCallFile "b.py"] with
  | .ok vs => vs
  | .error _ => []

/-- The visitor dictionary of the sequenced-variant run with two call
sites resolving to the same callee. -/
def demoDoubleCallRun : List (String × ExecutionDiagramIteration.ItState) :=
  match ExecutionDiagramIteration.analyze_project demoDoubleCallFiles with
  | .ok vs => vs
  | .error _ => []

/-- Demo file containing a single `import missing` statement. -/
def demoImportFile : PyFile := ⟨"imp.py", .ok [.importS ["missing"]]⟩

/-- The visitor dictionary of the plain-variant run on the import demo
file. -/
def demoImportRun : List (String × ExecutionDiagram.VState) :=
  match ExecutionDiagram.analyze_project [demoImportFile] with
  | .ok vs => vs
  | .error _ => []

/-- A module resolver that finds nothing (`find_spec` returns `None` for
every module name). -/
def findSpecNone : ExecutionDiagram.FindSpec := fun _ => .ok none

section DictSetLemmas

variable {β : Type}

theorem dictKeys_nil : dictKeys ([] : List (String × β)) = [] := rfl

theorem dictKeys_cons (p : String × β) (d : List (String × β)) :
    dictKeys (p :: d) = p.1 :: dictKeys d := rfl

theorem dictGet_dictSet (d : List (String × β)) (k k' : String) (v : β) :
    dictGet (dictSet d k v) k' = if k = k' then some v else dictGet d k' := by
  induction d with
  | nil => simp [dictSet, dictGet]
  | cons p rest ih =>
      by_cases hpk : p.1 = k
      · simp only [dictSet, if_pos hpk, dictGet]
        by_cases hkk : k = k' <;> simp [hkk, hpk]
      · simp only [dictSet, if_neg hpk, dictGet, ih]
        by_cases hpk' : p.1 = k'
        · have hne : ¬ k = k' := fun h => hpk (h ▸ hpk')
          simp [hpk', hne]
        · simp [hpk']

theorem mem_dictSet (d : List (String × β)) (k : String) (v : β) (kv : String × β) :
    kv ∈ dictSet d k v → kv ∈ d ∨ kv = (k, v) := by
  induction d with
  | nil => simp [dictSet]
  | cons p rest ih =>
      by_cases hpk : p.1 = k
      · simp only [dictSet, if_pos hpk, List.mem_cons]
        tauto
      · simp only [dictSet, if_neg hpk, List.mem_cons]
        rintro (h | h)
        · tauto
        · rcases ih h with h' | h' <;> tauto

theorem dictKeys_dictSet (d : List (String × β)) (k : String) (v : β) :
    dictKeys (dictSet d k v) =
      if k ∈ dictKeys d then dictKeys d else dictKeys d ++ [k] := by
  induction d with
  | nil => simp [dictSet, dictKeys]
  | cons p rest ih =>
      by_cases hpk : p.1 = k
      · subst hpk
        simp [dictSet, dictKeys_cons]
      · have hkp : ¬ k = p.1 := fun h => hpk h.symm
        simp only [dictSet, if_neg hpk, dictKeys_cons, ih, List.mem_cons, hkp,
          false_or]
        by_cases hmem : k ∈ dictKeys rest <;> simp [hmem]

theorem mem_dictKeys_dictSet (d : List (String × β)) (k k' : String) (v : β) :
    k' ∈ dictKeys (dictSet d k v) ↔ k' ∈ dictKeys d ∨ k' = k := by
  rw [dictKeys_dictSet]
  by_cases hmem : k ∈ dictKeys d
  · simp only [if_pos hmem]
    constructor
    · exact Or.inl
    · rintro (h | h)
      · exact h
      · exact h ▸ hmem
  · simp [if_neg hmem]

theorem dictKeys_nodup_dictSet (d : List (String × β)) (k : String) (v : β)
    (h : (dictKeys d).Nodup) : (dictKeys (dictSet d k v)).Nodup := by
  rw [dictKeys_dictSet]
  by_cases hmem : k ∈ dictKeys d
  · simpa [hmem] using h
  · simp only [if_neg hmem]
    rw [List.nodup_append]
    refine ⟨h, List.nodup_singleton k, ?_⟩
    intro a ha hb
    rw [List.mem_singleton] at hb
    exact hmem (hb ▸ ha)

theorem dictSet_of_not_mem (d : List (String × β)) (k : String) (v : β)
    (h : k ∉ dictKeys d) : dictSet d k v = d ++ [(k, v)] := by
  induction d with
  | nil => simp [dictSet]
  | cons p rest ih =>
      rw [dictKeys_cons, List.mem_cons] at h
      push_neg at h
      have h1 : ¬ p.1 = k := fun hh => h.1 hh.symm
      simp [dictSet, h1, ih h.2]

theorem dictMem_iff_mem_dictKeys (d : List (String × β)) (k : String) :
    dictMem d k ↔ k ∈ dictKeys d := by
  induction d with
  | nil => simp [dictMem, dictGet, dictKeys]
  | cons p rest ih =>
      by_cases hpk : p.1 = k
      · simp [dictMem, dictGet, hpk, dictKeys_cons]
      · have hkp : ¬ k = p.1 := fun h => hpk h.symm
        simp only [dictMem, dictGet, if_neg hpk, dictKeys_cons, List.mem_cons,
          hkp, false_or] at *
        exact ih

theorem dictGet_mem (d : List (String × β)) (k : String) (v : β)
    (h : dictGet d k = some v) : (k, v) ∈ d := by
  induction d with
  | nil => simp [dictGet] at h
  | cons p rest ih =>
      by_cases hpk : p.1 = k
      · simp only [dictGet, if_pos hpk, Option.some.injEq] at h
        have : p = (k, v) := Prod.ext hpk h
        exact this ▸ List.mem_cons_self p rest
      · simp only [dictGet, if_neg hpk] at h
        exact List.mem_cons_of_mem _ (ih h)

theorem dictGet_eq_none_of_not_mem (d : List (String × β)) (k : String)
    (h : k ∉ dictKeys d) : dictGet d k = none := by
  induction d with
  | nil => simp [dictGet]
  | cons p rest ih =>
      rw [dictKeys_cons, List.mem_cons] at h
      push_neg at h
      have h1 : ¬ p.1 = k := fun hh => h.1 hh.symm
      simp [dictGet, h1, ih h.2]

theorem dictValues_append (d d' : List (String × β)) :
    dictValues (d ++ d') = dictValues d ++ dictValues d' := by
  simp [dictValues]

theorem mem_setInsert {α : Type} [DecidableEq α] (x y : α) (s : List α) :
    y ∈ setInsert x s ↔ y ∈ s ∨ y = x := by
  by_cases h : x ∈ s
  · simp only [setInsert, if_pos h]
    exact ⟨Or.inl, fun hy => hy.elim id (fun he => he ▸ h)⟩
  · simp [setInsert, if_neg h]

theorem setInsert_self {α : Type} [DecidableEq α] (x : α) (s : List α) :
    x ∈ setInsert x s := (mem_setInsert x x s).mpr (Or.inr rfl)

theorem setInsert_append {α : Type} [DecidableEq α] (x : α) (s : List α) :
    ∃ d, setInsert x s = s ++ d ∧ ∀ y ∈ d, y = x := by
  by_cases h : x ∈ s
  · exact ⟨[], by simp [setInsert, h]⟩
  · exact ⟨[x], by simp [setInsert, h]⟩

theorem setInsert_nodup {α : Type} [DecidableEq α] (x : α) (s : List α)
    (h : s.Nodup) : (setInsert x s).Nodup := by
  by_cases hx : x ∈ s
  · simpa [setInsert, hx] using h
  · rw [setInsert, if_neg hx, List.nodup_append]
    refine ⟨h, List.nodup_singleton x, ?_⟩
    intro a ha hb
    rw [List.mem_singleton] at hb
    exact hx (hb ▸ ha)

end DictSetLemmas

namespace ExecutionDiagram

/-- What one traversal step of the plain visitor can do to the state:
the filename and the symbol table are untouched; `function_calls` only
grows, and every added pair is a non-self-loop edge out of the current
file; `functions` only grows. -/
structure VInv (st st' : VState) : Prop where
  filename_eq : st'.filename = st.filename
  table_eq : st'.func_to_file = st.func_to_file
  calls_ext : ∃ delta, st'.function_calls = st.function_calls ++ delta ∧
    ∀ d ∈ delta, d.1 = st.filename ∧ d.2 ≠ st.filename ∧ d.2 ≠ ""
  calls_nodup : st.function_calls.Nodup → st'.function_calls.Nodup
  functions_ext : ∃ delta, st'.functions = st.functions ++ delta

theorem vinv_refl (st : VState) : VInv st st :=
  ⟨rfl, rfl, ⟨[], by simp⟩, id, ⟨[], by simp⟩⟩

theorem vinv_trans {a b c : VState} (h1 : VInv a b) (h2 : VInv b c) : VInv a c := by
  obtain ⟨d1, hd1, hp1⟩ := h1.calls_ext
  obtain ⟨d2, hd2, hp2⟩ := h2.calls_ext
  obtain ⟨f1, hf1⟩ := h1.functions_ext
  obtain ⟨f2, hf2⟩ := h2.functions_ext
  refine ⟨h2.filename_eq.trans h1.filename_eq, h2.table_eq.trans h1.table_eq,
    ⟨d1 ++ d2, ?_, ?_⟩, fun hn => h2.calls_nodup (h1.calls_nodup hn),
    ⟨f1 ++ f2, by rw [hf2, hf1, List.append_assoc]⟩⟩
  · rw [hd2, hd1, List.append_assoc]
  · intro d hd
    rcases List.mem_append.mp hd with h | h
    · exact hp1 d h
    · have := hp2 d h
      rwa [h1.filename_eq] at this

theorem vinv_update_outputs (st : VState) (o : List String) :
    VInv st { st with outputs := o } :=
  ⟨rfl, rfl, ⟨[], by simp⟩, id, ⟨[], by simp⟩⟩

theorem vinv_update_imports (st : VState) (im : List (String × String)) :
    VInv st { st with imports := im } :=
  ⟨rfl, rfl, ⟨[], by simp⟩, id, ⟨[], by simp⟩⟩

theorem vinv_update_cc (st : VState) (cc : Option String) :
    VInv st { st with current_class := cc } :=
  ⟨rfl, rfl, ⟨[], by simp⟩, id, ⟨[], by simp⟩⟩

theorem vinv_update_classes_cc (st : VState) (c : String) (cc : Option String) :
    VInv st { st with classes := setInsert c st.classes, current_class := cc } :=
  ⟨rfl, rfl, ⟨[], by simp⟩, id, ⟨[], by simp⟩⟩

theorem vinv_update_functions (st : VState) (f : String) :
    VInv st { st with functions := setInsert f st.functions } := by
  obtain ⟨d, hd, _⟩ := setInsert_append f st.functions
  exact ⟨rfl, rfl, ⟨[], by simp⟩, id, ⟨d, hd⟩⟩

theorem vinv_process_call (st : VState) (node : Expr) : VInv st (process_call st node) := by
  unfold process_call
  cases hfn : get_func_name node with
  | none => exact vinv_refl st
  | some fn =>
      by_cases hempty : fn = ""
      · simp only [if_pos hempty]
        exact vinv_refl st
      · simp only [if_neg hempty]
        have h1 : VInv st
            (match find_callee_file st fn with
             | some callee_file =>
                 if callee_file ≠ "" ∧ callee_file ≠ st.filename then
                   { st with function_calls :=
                       setInsert (st.filename, callee_file) st.function_calls }
                 else st
             | none => st) := by
          cases hcf : find_callee_file st fn with
          | none => exact vinv_refl st
          | some callee =>
              by_cases hg : callee ≠ "" ∧ callee ≠ st.filename
              · simp only [if_pos hg]
                obtain ⟨d, hd, hall⟩ :=
                  setInsert_append (st.filename, callee) st.function_calls
                refine ⟨rfl, rfl, ⟨d, hd, ?_⟩, ?_, ⟨[], by simp⟩⟩
                · intro e he
                  rw [hall e he]
                  exact ⟨rfl, hg.2, hg.1⟩
                · exact fun hn => setInsert_nodup _ _ hn
              · simp only [if_neg hg]
                exact vinv_refl st
        by_cases hout : fn ∈ output_functions
        · simp only [if_pos hout]
          exact vinv_trans h1 (vinv_update_outputs _ _)
        · simp only [if_neg hout]
          exact h1

theorem vinv_visit_import_aliases (st : VState) (ns : List String) :
    VInv st (visit_import_aliases st ns) := by
  induction ns generalizing st with
  | nil => exact vinv_refl st
  | cons n rest ih =>
      unfold visit_import_aliases at *
      rw [List.foldl_cons]
      exact vinv_trans (vinv_update_imports st _) (ih _)

theorem vinv_visit_importFrom_aliases (st : VState) (module : Option String)
    (ns : List String) : VInv st (visit_importFrom_aliases st module ns) := by
  induction ns generalizing st with
  | nil => exact vinv_refl st
  | cons n rest ih =>
      unfold visit_importFrom_aliases at *
      rw [List.foldl_cons]
      exact vinv_trans (vinv_update_imports st _) (ih _)

mutual
theorem vinv_visitExpr (e : Expr) (st : VState) : VInv st (visitExpr st e) := by
  match e with
  | .name i => simp only [visitExpr]; exact vinv_refl st
  | .attribute v a => simp only [visitExpr]; exact vinv_visitExpr v st
  | .other => simp only [visitExpr]; exact vinv_refl st
  | .call f args =>
      simp only [visitExpr]
      exact vinv_trans (vinv_process_call st _)
        (vinv_trans (vinv_visitExpr f _) (vinv_visitExprs args _))

theorem vinv_visitExprs (l : List Expr) (st : VState) : VInv st (visitExprs st l) := by
  cases l with
  | nil => simp only [visitExprs]; exact vinv_refl st
  | cons e rest =>
      simp only [visitExprs]
      exact vinv_trans (vinv_visitExpr e st) (vinv_visitExprs rest _)
end

mutual
theorem vinv_visitStmt (s : Stmt) (st : VState) : VInv st (visitStmt st s) := by
  cases s with
  | importS ns => simp only [visitStmt]; exact vinv_visit_import_aliases st ns
  | importFrom m ns => simp only [visitStmt]; exact vinv_visit_importFrom_aliases st m ns
  | exprStmt e => simp only [visitStmt]; exact vinv_visitExpr e st
  | classDef c body =>
      simp only [visitStmt]
      exact vinv_trans (vinv_update_classes_cc st c (some c))
        (vinv_trans (vinv_visitStmts body _) (vinv_update_cc _ none))
  | funcDef f body =>
      simp only [visitStmt]
      by_cases hcc : st.current_class.isNone
      · simp only [if_pos hcc]
        exact vinv_trans (vinv_update_functions st f) (vinv_visitStmts body _)
      · simp only [if_neg hcc]
        exact vinv_visitStmts body _

theorem vinv_visitStmts (l : List Stmt) (st : VState) : VInv st (visitStmts st l) := by
  cases l with
  | nil => simp only [visitStmts]; exact vinv_refl st
  | cons s rest =>
      simp only [visitStmts]
      exact vinv_trans (vinv_visitStmt s st) (vinv_visitStmts rest _)
end

end ExecutionDiagram

namespace ExecutionDiagram

theorem cc_process_call (st : VState) (node : Expr) :
    (process_call st node).current_class = st.current_class := by
  unfold process_call
  cases get_func_name node with
  | none => rfl
  | some fn =>
      by_cases hempty : fn = ""
      · simp [hempty]
      · simp only [if_neg hempty]
        cases find_callee_file st fn with
        | none => by_cases hout : fn ∈ output_functions <;> simp [hout]
        | some callee =>
            by_cases hg : callee ≠ "" ∧ callee ≠ st.filename <;>
              by_cases hout : fn ∈ output_functions <;> simp [hg, hout]

theorem cc_visit_import_aliases (st : VState) (ns : List String) :
    (visit_import_aliases st ns).current_class = st.current_class := by
  induction ns generalizing st with
  | nil => rfl
  | cons n rest ih =>
      unfold visit_import_aliases at *
      rw [List.foldl_cons, ih]

theorem cc_visit_importFrom_aliases (st : VState) (module : Option String)
    (ns : List String) :
    (visit_importFrom_aliases st module ns).current_class = st.current_class := by
  induction ns generalizing st with
  | nil => rfl
  | cons n rest ih =>
      unfold visit_importFrom_aliases at *
      rw [List.foldl_cons, ih]

mutual
theorem cc_visitExpr (e : Expr) (st : VState) :
    (visitExpr st e).current_class = st.current_class := by
  match e with
  | .name i => simp only [visitExpr]
  | .attribute v a => simp only [visitExpr]; exact cc_visitExpr v st
  | .other => simp only [visitExpr]
  | .call f args =>
      simp only [visitExpr]
      rw [cc_visitExprs args _, cc_visitExpr f _, cc_process_call st _]

theorem cc_visitExprs (l : List Expr) (st : VState) :
    (visitExprs st l).current_class = st.current_class := by
  match l with
  | [] => simp only [visitExprs]
  | e :: rest =>
      simp only [visitExprs]
      rw [cc_visitExprs rest _, cc_visitExpr e st]
end

theorem cc_visitStmt_classDef (st : VState) (c : String) (body : List Stmt) :
    (visitStmt st (.classDef c body)).current_class = none := by
  simp only [visitStmt]

mutual
theorem ccn_visitStmt (s : Stmt) (st : VState) (h : st.current_class = none) :
    (visitStmt st s).current_class = none := by
  match s with
  | .importS ns => simp only [visitStmt]; rw [cc_visit_import_aliases, h]
  | .importFrom m ns => simp only [visitStmt]; rw [cc_visit_importFrom_aliases, h]
  | .exprStmt e => simp only [visitStmt]; rw [cc_visitExpr, h]
  | .classDef c body => exact cc_visitStmt_classDef st c body
  | .funcDef f body =>
      simp only [visitStmt]
      by_cases hcc : st.current_class.isNone
      · simp only [if_pos hcc]
        exact ccn_visitStmts body _ h
      · simp only [if_neg hcc]
        exact ccn_visitStmts body _ h

theorem ccn_visitStmts (l : List Stmt) (st : VState) (h : st.current_class = none) :
    (visitStmts st l).current_class = none := by
  match l with
  | [] => simpa only [visitStmts] using h
  | s :: rest =>
      simp only [visitStmts]
      exact ccn_visitStmts rest _ (ccn_visitStmt s st h)
end

theorem visitStmts_append (st : VState) (l1 l2 : List Stmt) :
    visitStmts st (l1 ++ l2) = visitStmts (visitStmts st l1) l2 := by
  induction l1 generalizing st with
  | nil => simp only [List.nil_append, visitStmts]
  | cons s rest ih =>
      simp only [List.cons_append, visitStmts]
      exact ih _

theorem mem_functions_of_vinv {st st' : VState} (h : VInv st st') {x : String}
    (hx : x ∈ st.functions) : x ∈ st'.functions := by
  obtain ⟨d, hd⟩ := h.functions_ext
  rw [hd]
  exact List.mem_append.mpr (Or.inl hx)

end ExecutionDiagram

namespace ExecutionDiagram

theorem mem_functions_visitStmts_funcDef (st : VState)
    (h : st.current_class = none) (f : String) (fb b2 : List Stmt) :
    f ∈ (visitStmts st (.funcDef f fb :: b2)).functions := by
  simp only [visitStmts, visitStmt]
  have hcc : st.current_class.isNone = true := by rw [h]; rfl
  simp only [if_pos hcc]
  exact mem_functions_of_vinv (vinv_visitStmts b2 _)
    (mem_functions_of_vinv (vinv_visitStmts fb _) (setInsert_self f st.functions))

end ExecutionDiagram

/-- C10: the single-slot class context is reset to `None` (not restored
to the outer class) whenever a class definition's subtree is left; as a
consequence, in a class body of the form
`b1; class Inner: ...; mid; def f(...): ...; b2`, the method `f` of the
outer class — declared after the nested class — is added to the file's
top-level function set. -/
theorem c10_nested_class_context_lost (st : ExecutionDiagram.VState)
    (outer inner f : String) (b1 ib mid fb b2 : List Stmt) :
    (∀ st' : ExecutionDiagram.VState,
      (ExecutionDiagram.visitStmt st' (.classDef inner ib)).current_class = none) ∧
    f ∈ (ExecutionDiagram.visitStmt st (.classDef outer
        (b1 ++ .classDef inner ib :: (mid ++ .funcDef f fb :: b2)))).functions := by
  refine ⟨fun st' => ExecutionDiagram.cc_visitStmt_classDef st' inner ib, ?_⟩
  simp only [ExecutionDiagram.visitStmt]
  rw [ExecutionDiagram.visitStmts_append]
  simp only [ExecutionDiagram.visitStmts]
  rw [ExecutionDiagram.visitStmts_append]
  exact ExecutionDiagram.mem_functions_visitStmts_funcDef _
    (ExecutionDiagram.ccn_visitStmts mid _
      (ExecutionDiagram.cc_visitStmt_classDef _ inner ib)) f fb b2

namespace ExecutionDiagram

theorem parse_file_ok_props (fp : PyFile) (tbl : List (String × String))
    (st : VState) (h : parse_file fp tbl = .ok st) :
    st.filename = os_path_abspath fp.path ∧ st.func_to_file = tbl ∧
    st.function_calls.Nodup ∧
    ∀ e ∈ st.function_calls,
      e.1 = os_path_abspath fp.path ∧ e.2 ≠ os_path_abspath fp.path ∧ e.2 ≠ "" := by
  unfold parse_file at h
  cases hm : fp.parsed with
  | error e => rw [hm] at h; exact absurd h (by simp)
  | ok tree =>
      rw [hm] at h
      have hst : st = visitStmts (initVisitor fp.path tbl) tree := by
        have := h
        simp only [Except.ok.injEq] at this
        exact this.symm
      subst hst
      have hv := vinv_visitStmts tree (initVisitor fp.path tbl)
      obtain ⟨delta, hdelta, hprops⟩ := hv.calls_ext
      refine ⟨hv.filename_eq, hv.table_eq, hv.calls_nodup (by simp [initVisitor]), ?_⟩
      intro e he
      rw [hdelta] at he
      simp only [initVisitor, List.nil_append] at he hprops hdelta ⊢
      exact hprops e he

theorem analyze_files_allQ (tbl : List (String × String))
    (Q : String × VState → Prop) :
    ∀ (files : List PyFile) (acc : List (String × VState))
      (vs : List (String × VState)),
    analyze_files tbl acc files = .ok vs →
    (∀ kv ∈ acc, Q kv) →
    (∀ fp st, fp ∈ files → parse_file fp tbl = .ok st →
      Q (os_path_abspath fp.path, st)) →
    ∀ kv ∈ vs, Q kv := by
  intro files
  induction files with
  | nil =>
      intro acc vs h hacc _
      simp only [analyze_files, Except.ok.injEq] at h
      exact h ▸ hacc
  | cons fp rest ih =>
      intro acc vs h hacc hnew
      simp only [analyze_files] at h
      cases hp : parse_file fp tbl with
      | error e => rw [hp] at h; exact absurd h (by simp)
      | ok visitor =>
          rw [hp] at h
          refine ih _ _ h ?_ ?_
          · intro kv hkv
            rcases mem_dictSet _ _ _ _ hkv with h' | h'
            · exact hacc kv h'
            · rw [h']
              exact hnew fp visitor (List.mem_cons_self fp rest) hp
          · intro fp' st' hfp' hps'
            exact hnew fp' st' (List.mem_cons_of_mem fp hfp') hps'

theorem analyze_files_keys_nodup (tbl : List (String × String)) :
    ∀ (files : List PyFile) (acc : List (String × VState))
      (vs : List (String × VState)),
    analyze_files tbl acc files = .ok vs →
    (dictKeys acc).Nodup → (dictKeys vs).Nodup := by
  intro files
  induction files with
  | nil =>
      intro acc vs h hacc
      simp only [analyze_files, Except.ok.injEq] at h
      exact h ▸ hacc
  | cons fp rest ih =>
      intro acc vs h hacc
      simp only [analyze_files] at h
      cases hp : parse_file fp tbl with
      | error e => rw [hp] at h; exact absurd h (by simp)
      | ok visitor =>
          rw [hp] at h
          exact ih _ _ h (dictKeys_nodup_dictSet _ _ _ hacc)

theorem analyze_project_ok_props (files : List PyFile)
    (vs : List (String × VState)) (h : analyze_project files = .ok vs) :
    ∃ tbl, build_function_to_file_map files = .ok tbl ∧
      (dictKeys vs).Nodup ∧
      ∀ kv ∈ vs, kv.2.func_to_file = tbl ∧ kv.2.filename = kv.1 ∧
        kv.2.function_calls.Nodup ∧
        ∀ e ∈ kv.2.function_calls, e.1 = kv.1 ∧ e.2 ≠ kv.1 ∧ e.2 ≠ "" := by
  unfold analyze_project at h
  cases hb : build_function_to_file_map files with
  | error e => rw [hb] at h; exact absurd h (by simp)
  | ok tbl =>
      rw [hb] at h
      refine ⟨tbl, rfl, analyze_files_keys_nodup tbl files [] vs h (by simp [dictKeys]), ?_⟩
      refine analyze_files_allQ tbl _ files [] vs h (by simp) ?_
      intro fp st _ hps
      obtain ⟨hfn, htbl, hnd, hcalls⟩ := parse_file_ok_props fp tbl st hps
      refine ⟨htbl, hfn, hnd, ?_⟩
      intro e he
      exact hcalls e he

end ExecutionDiagram

namespace ExecutionDiagramIteration

/-- What one traversal step of the sequenced visitor can do to the state:
filename and symbol table untouched; `calls_with_sequence` grows by a block
of triples stamped with the consecutive counter values following the
starting counter, the counter advances by exactly the number of recorded
triples, and every recorded triple is a non-self-loop edge out of the
current file. -/
structure ItInv (st st' : ItState) : Prop where
  filename_eq : st'.filename = st.filename
  table_eq : st'.func_to_file = st.func_to_file
  seq_ext : ∃ delta, st'.calls_with_sequence = st.calls_with_sequence ++ delta ∧
    delta.map (fun c => c.1) = List.range' (st.counter + 1) delta.length ∧
    st'.counter = st.counter + delta.length ∧
    ∀ c ∈ delta, c.2.1 = st.filename ∧ c.2.2 ≠ st.filename ∧ c.2.2 ≠ ""

theorem itinv_refl (st : ItState) : ItInv st st :=
  ⟨rfl, rfl, ⟨[], by simp, by simp [List.range'], by simp, by simp⟩⟩

theorem itinv_trans {a b c : ItState} (h1 : ItInv a b) (h2 : ItInv b c) : ItInv a c := by
  obtain ⟨d1, hd1, hm1, hc1, hp1⟩ := h1.seq_ext
  obtain ⟨d2, hd2, hm2, hc2, hp2⟩ := h2.seq_ext
  refine ⟨h2.filename_eq.trans h1.filename_eq, h2.table_eq.trans h1.table_eq,
    ⟨d1 ++ d2, ?_, ?_, ?_, ?_⟩⟩
  · rw [hd2, hd1, List.append_assoc]
  · rw [List.map_append, hm1, hm2, hc1]
    have he : a.counter + d1.length + 1 = a.counter + 1 + 1 * d1.length := by omega
    rw [he, List.range'_append, List.length_append, Nat.add_comm d2.length d1.length]
  · rw [hc2, hc1, List.length_append, Nat.add_assoc]
  · intro x hx
    rcases List.mem_append.mp hx with h | h
    · exact hp1 x h
    · have := hp2 x h
      rwa [h1.filename_eq] at this

theorem itinv_update_outputs (st : ItState) (o : List String) :
    ItInv st { st with outputs := o } :=
  ⟨rfl, rfl, ⟨[], by simp, by simp [List.range'], by simp, by simp⟩⟩

theorem itinv_update_imports (st : ItState) (im : List (String × String)) :
    ItInv st { st with imports := im } :=
  ⟨rfl, rfl, ⟨[], by simp, by simp [List.range'], by simp, by simp⟩⟩

theorem itinv_update_cc (st : ItState) (cc : Option String) :
    ItInv st { st with current_class := cc } :=
  ⟨rfl, rfl, ⟨[], by simp, by simp [List.range'], by simp, by simp⟩⟩

theorem itinv_update_classes_cc (st : ItState) (c : String) (cc : Option String) :
    ItInv st { st with classes := setInsert c st.classes, current_class := cc } :=
  ⟨rfl, rfl, ⟨[], by simp, by simp [List.range'], by simp, by simp⟩⟩

theorem itinv_update_functions (st : ItState) (f : String) :
    ItInv st { st with functions := setInsert f st.functions } :=
  ⟨rfl, rfl, ⟨[], by simp, by simp [List.range'], by simp, by simp⟩⟩

theorem itinv_record_call (st : ItState) (callee : String)
    (h1 : callee ≠ "") (h2 : callee ≠ st.filename) :
    ItInv st { st with counter := st.counter + 1
                       calls_with_sequence := st.calls_with_sequence ++
                         [(st.counter + 1, st.filename, callee)] } := by
  refine ⟨rfl, rfl, ⟨[(st.counter + 1, st.filename, callee)], rfl, ?_, by simp, ?_⟩⟩
  · simp [List.range'_one]
  · intro c hc
    rw [List.mem_singleton] at hc
    rw [hc]
    exact ⟨rfl, h2, h1⟩

theorem itinv_process_call (st : ItState) (node : Expr) :
    ItInv st (process_call st node) := by
  unfold process_call
  cases hfn : get_func_name node with
  | none => exact itinv_refl st
  | some fn =>
      by_cases hempty : fn = ""
      · simp only [if_pos hempty]
        exact itinv_refl st
      · simp only [if_neg hempty]
        have h1 : ItInv st
            (match find_callee_file st fn with
             | some callee_file =>
                 if callee_file ≠ "" ∧ callee_file ≠ st.filename then
                   { st with counter := st.counter + 1
                             calls_with_sequence := st.calls_with_sequence ++
                               [(st.counter + 1, st.filename, callee_file)] }
                 else st
             | none => st) := by
          cases hcf : find_callee_file st fn with
          | none => exact itinv_refl st
          | some callee =>
              by_cases hg : callee ≠ "" ∧ callee ≠ st.filename
              · simp only [if_pos hg]
                exact itinv_record_call st callee hg.1 hg.2
              · simp only [if_neg hg]
                exact itinv_refl st
        by_cases hout : fn ∈ output_functions
        · simp only [if_pos hout]
          exact itinv_trans h1 (itinv_update_outputs _ _)
        · simp only [if_neg hout]
          exact h1

theorem itinv_visit_import_aliases (st : ItState) (ns : List String) :
    ItInv st (visit_import_aliases st ns) := by
  induction ns generalizing st with
  | nil => exact itinv_refl st
  | cons n rest ih =>
      unfold visit_import_aliases at *
      rw [List.foldl_cons]
      exact itinv_trans (itinv_update_imports st _) (ih _)

theorem itinv_visit_importFrom_aliases (st : ItState) (module : Option String)
    (ns : List String) : ItInv st (visit_importFrom_aliases st module ns) := by
  induction ns generalizing st with
  | nil => exact itinv_refl st
  | cons n rest ih =>
      unfold visit_importFrom_aliases at *
      rw [List.foldl_cons]
      exact itinv_trans (itinv_update_imports st _) (ih _)

mutual
theorem itinv_visitExpr (e : Expr) (st : ItState) : ItInv st (visitExpr st e) := by
  match e with
  | .name i => simp only [visitExpr]; exact itinv_refl st
  | .attribute v a => simp only [visitExpr]; exact itinv_visitExpr v st
  | .other => simp only [visitExpr]; exact itinv_refl st
  | .call f args =>
      simp only [visitExpr]
      exact itinv_trans (itinv_process_call st _)
        (itinv_trans (itinv_visitExpr f _) (itinv_visitExprs args _))

theorem itinv_visitExprs (l : List Expr) (st : ItState) : ItInv st (visitExprs st l) := by
  match l with
  | [] => simp only [visitExprs]; exact itinv_refl st
  | e :: rest =>
      simp only [visitExprs]
      exact itinv_trans (itinv_visitExpr e st) (itinv_visitExprs rest _)
end

mutual
theorem itinv_visitStmt (s : Stmt) (st : ItState) : ItInv st (visitStmt st s) := by
  match s with
  | .importS ns => simp only [visitStmt]; exact itinv_visit_import_aliases st ns
  | .importFrom m ns => simp only [visitStmt]; exact itinv_visit_importFrom_aliases st m ns
  | .exprStmt e => simp only [visitStmt]; exact itinv_visitExpr e st
  | .classDef c body =>
      simp only [visitStmt]
      exact itinv_trans (itinv_update_classes_cc st c (some c))
        (itinv_trans (itinv_visitStmts body _) (itinv_update_cc _ none))
  | .funcDef f body =>
      simp only [visitStmt]
      by_cases hcc : st.current_class.isNone
      · simp only [if_pos hcc]
        exact itinv_trans (itinv_update_functions st f) (itinv_visitStmts body _)
      · simp only [if_neg hcc]
        exact itinv_visitStmts body _

theorem itinv_visitStmts (l : List Stmt) (st : ItState) : ItInv st (visitStmts st l) := by
  match l with
  | [] => simp only [visitStmts]; exact itinv_refl st
  | s :: rest =>
      simp only [visitStmts]
      exact itinv_trans (itinv_visitStmt s st) (itinv_visitStmts rest _)
end

end ExecutionDiagramIteration

namespace ExecutionDiagramIteration

theorem parse_file_seq_ok_props (fp : PyFile) (tbl : List (String × String))
    (c : Nat) (st : ItState) (h : parse_file fp tbl c = .ok st) :
    st.filename = os_path_abspath fp.path ∧ st.func_to_file = tbl ∧
    st.calls_with_sequence.map (fun x => x.1) =
      List.range' (c + 1) st.calls_with_sequence.length ∧
    st.counter = c + st.calls_with_sequence.length ∧
    ∀ e ∈ st.calls_with_sequence,
      e.2.1 = os_path_abspath fp.path ∧ e.2.2 ≠ os_path_abspath fp.path ∧ e.2.2 ≠ "" := by
  unfold parse_file at h
  cases hm : fp.parsed with
  | error e => rw [hm] at h; exact absurd h (by simp)
  | ok tree =>
      rw [hm] at h
      have hst : st = visitStmts (initVisitor fp.path tbl c) tree := by
        have := h
        simp only [Except.ok.injEq] at this
        exact this.symm
      subst hst
      have hv := itinv_visitStmts tree (initVisitor fp.path tbl c)
      obtain ⟨delta, hdelta, hmap, hcount, hprops⟩ := hv.seq_ext
      have hcs0 : (initVisitor fp.path tbl c).calls_with_sequence = [] := rfl
      have hc0 : (initVisitor fp.path tbl c).counter = c := rfl
      have hf0 : (initVisitor fp.path tbl c).filename = os_path_abspath fp.path := rfl
      rw [hcs0, List.nil_append] at hdelta
      rw [hc0] at hmap hcount
      rw [hf0] at hprops
      refine ⟨hv.filename_eq.trans hf0, hv.table_eq, ?_, ?_, ?_⟩
      · rw [hdelta]; exact hmap
      · rw [hdelta]; exact hcount
      · intro e he
        rw [hdelta] at he
        exact hprops e he

theorem all_calls_append (d d' : List (String × ItState)) :
    all_calls_with_sequence (d ++ d') =
      all_calls_with_sequence d ++ all_calls_with_sequence d' := by
  simp [all_calls_with_sequence, dictValues]

theorem analyze_files_it_calls (tbl : List (String × String)) :
    ∀ (files : List PyFile) (acc : List (String × ItState)) (c : Nat)
      (vs : List (String × ItState)),
    analyze_files tbl acc c files = .ok vs →
    (∀ fp ∈ files, os_path_abspath fp.path ∉ dictKeys acc) →
    (files.map (fun fp => os_path_abspath fp.path)).Nodup →
    ∃ delta, all_calls_with_sequence vs = all_calls_with_sequence acc ++ delta ∧
      delta.map (fun x => x.1) = List.range' (c + 1) delta.length := by
  intro files
  induction files with
  | nil =>
      intro acc c vs h _ _
      simp only [analyze_files, Except.ok.injEq] at h
      exact ⟨[], by simp [← h], by simp [List.range']⟩
  | cons fp rest ih =>
      intro acc c vs h hfresh hnd
      simp only [analyze_files] at h
      cases hp : parse_file fp tbl c with
      | error e => rw [hp] at h; exact absurd h (by simp)
      | ok visitor =>
          rw [hp] at h
          obtain ⟨hfn, htbl, hmap, hcount, hprops⟩ :=
            parse_file_seq_ok_props fp tbl c visitor hp
          have hkey : os_path_abspath fp.path ∉ dictKeys acc :=
            hfresh fp (List.mem_cons_self fp rest)
          have hset : dictSet acc (os_path_abspath fp.path) visitor =
              acc ++ [(os_path_abspath fp.path, visitor)] :=
            dictSet_of_not_mem acc _ visitor hkey
          replace h : analyze_files tbl (dictSet acc (os_path_abspath fp.path) visitor)
              visitor.counter rest = .ok vs := h
          rw [hset] at h
          simp only [List.map_cons, List.nodup_cons] at hnd
          have hfresh' : ∀ fp' ∈ rest, os_path_abspath fp'.path ∉
              dictKeys (acc ++ [(os_path_abspath fp.path, visitor)]) := by
            intro fp' hfp'
            have h1 : os_path_abspath fp'.path ∉ dictKeys acc :=
              hfresh fp' (List.mem_cons_of_mem fp hfp')
            have h2 : os_path_abspath fp'.path ≠ os_path_abspath fp.path := by
              intro he
              exact hnd.1 (he ▸ List.mem_map_of_mem (fun q => os_path_abspath q.path) hfp')
            simp [dictKeys, List.map_append]
            constructor
            · simpa [dictKeys] using h1
            · exact h2
          obtain ⟨delta1, hd1, hm1⟩ := ih _ visitor.counter vs h hfresh' hnd.2
          rw [all_calls_append] at hd1
          have hone : all_calls_with_sequence [(os_path_abspath fp.path, visitor)] =
              visitor.calls_with_sequence := by
            simp [all_calls_with_sequence, dictValues]
          refine ⟨visitor.calls_with_sequence ++ delta1, ?_, ?_⟩
          · rw [hd1, hone, List.append_assoc]
          · rw [List.map_append, hmap, hm1, hcount]
            have he : c + visitor.calls_with_sequence.length + 1 =
                c + 1 + 1 * visitor.calls_with_sequence.length := by omega
            rw [he, List.range'_append, List.length_append,
              Nat.add_comm delta1.length visitor.calls_with_sequence.length]

theorem analyze_files_it_allQ (tbl : List (String × String))
    (Q : String × ItState → Prop) :
    ∀ (files : List PyFile) (acc : List (String × ItState)) (c : Nat)
      (vs : List (String × ItState)),
    analyze_files tbl acc c files = .ok vs →
    (∀ kv ∈ acc, Q kv) →
    (∀ fp c' st, fp ∈ files → parse_file fp tbl c' = .ok st →
      Q (os_path_abspath fp.path, st)) →
    ∀ kv ∈ vs, Q kv := by
  intro files
  induction files with
  | nil =>
      intro acc c vs h hacc _
      simp only [analyze_files, Except.ok.injEq] at h
      exact h ▸ hacc
  | cons fp rest ih =>
      intro acc c vs h hacc hnew
      simp only [analyze_files] at h
      cases hp : parse_file fp tbl c with
      | error e => rw [hp] at h; exact absurd h (by simp)
      | ok visitor =>
          rw [hp] at h
          refine ih _ _ vs h ?_ ?_
          · intro kv hkv
            rcases mem_dictSet _ _ _ _ hkv with h' | h'
            · exact hacc kv h'
            · rw [h']
              exact hnew fp c visitor (List.mem_cons_self fp rest) hp
          · intro fp' c' st' hfp' hps'
            exact hnew fp' c' st' (List.mem_cons_of_mem fp hfp') hps'

theorem insertBySeq_perm (x : Nat × String × String)
    (l : List (Nat × String × String)) : (insertBySeq x l).Perm (x :: l) := by
  induction l with
  | nil => simp [insertBySeq]
  | cons y rest ih =>
      by_cases hcmp : x.1 < y.1
      · simp [insertBySeq, hcmp]
      · rw [insertBySeq, if_neg hcmp]
        exact (ih.cons y).trans (List.Perm.swap x y rest)

theorem sortBySeq_perm (l : List (Nat × String × String)) :
    (sortBySeq l).Perm l := by
  induction l with
  | nil => simp [sortBySeq]
  | cons x rest ih =>
      have : sortBySeq (x :: rest) = insertBySeq x (sortBySeq rest) := rfl
      rw [this]
      exact (insertBySeq_perm x (sortBySeq rest)).trans (ih.cons x)

theorem sortBySeq_of_sorted (l : List (Nat × String × String))
    (h : l.Pairwise (fun a b => a.1 < b.1)) : sortBySeq l = l := by
  induction l with
  | nil => rfl
  | cons x rest ih =>
      rw [List.pairwise_cons] at h
      have hrest : sortBySeq rest = rest := ih h.2
      have : sortBySeq (x :: rest) = insertBySeq x (sortBySeq rest) := rfl
      rw [this, hrest]
      cases rest with
      | nil => rfl
      | cons y rest' =>
          rw [insertBySeq, if_pos (h.1 y (List.mem_cons_self y rest'))]

end ExecutionDiagramIteration

/-- C4: in the sequenced variant, for every run (a file set with distinct
canonical paths, as produced by discovery) that completes, the sequence
numbers of all recorded call edges, in the order call sites are visited
across all files, are exactly `1, 2, 3, ...` — they start at `1` and are
strictly increasing and unique — and the call edges emitted to the
renderer carry strictly increasing sequence numbers (sorted ascending). -/
theorem c4_sequence_numbers (files : List PyFile)
    (hnd : (files.map (fun fp => os_path_abspath fp.path)).Nodup)
    (vs : List (String × ExecutionDiagramIteration.ItState))
    (h : ExecutionDiagramIteration.analyze_project files = .ok vs) :
    (ExecutionDiagramIteration.all_calls_with_sequence vs).map (fun x => x.1) =
      List.range' 1 (ExecutionDiagramIteration.all_calls_with_sequence vs).length ∧
    ((ExecutionDiagramIteration.call_edges vs).map (fun x => x.1)).Pairwise (· < ·) := by
  unfold ExecutionDiagramIteration.analyze_project at h
  cases hb : ExecutionDiagramIteration.build_function_to_file_map files with
  | error e => rw [hb] at h; exact absurd h (by simp)
  | ok tbl =>
      rw [hb] at h
      obtain ⟨delta, hd, hm⟩ :=
        ExecutionDiagramIteration.analyze_files_it_calls tbl files [] 0 vs h
          (by simp [dictKeys]) hnd
      have hnil : ExecutionDiagramIteration.all_calls_with_sequence
          ([] : List (String × ExecutionDiagramIteration.ItState)) = [] := rfl
      rw [hnil, List.nil_append] at hd
      have hm1 : delta.map (fun x => x.1) = List.range' 1 delta.length := by
        simpa using hm
      have hpl : delta.Pairwise (fun a b => a.1 < b.1) := by
        have hp := List.pairwise_lt_range' 1 delta.length 1
        rw [← hm1] at hp
        exact List.pairwise_map.mp hp
      constructor
      · rw [hd, hm1]
      · have hsorted : ExecutionDiagramIteration.sortBySeq
            (ExecutionDiagramIteration.all_calls_with_sequence vs) =
            ExecutionDiagramIteration.all_calls_with_sequence vs := by
          rw [hd]
          exact ExecutionDiagramIteration.sortBySeq_of_sorted delta hpl
        unfold ExecutionDiagramIteration.call_edges
        rw [hsorted]
        refine List.pairwise_map.mpr ?_
        refine List.Pairwise.sublist (List.filter_sublist _) ?_
        rw [hd]
        exact hpl

/-- Witness for C4: the three-file demo run has sequence numbers `[1, 2, 3]`
on its recorded calls and emits them ascending. -/
theorem c4_sequence_numbers_witness :
    (demoSeqFiles.map (fun fp => os_path_abspath fp.path)).Nodup ∧
    ExecutionDiagramIteration.analyze_project demoSeqFiles = .ok demoSeqRun ∧
    ((ExecutionDiagramIteration.all_calls_with_sequence demoSeqRun).map (fun x => x.1) =
      List.range' 1 (ExecutionDiagramIteration.all_calls_with_sequence demoSeqRun).length ∧
    ((ExecutionDiagramIteration.call_edges demoSeqRun).map (fun x => x.1)).Pairwise (· < ·)) :=
  ⟨by decide, by rfl, c4_sequence_numbers demoSeqFiles (by decide) demoSeqRun (by rfl)⟩

/-- C6: the symbol table is fully built before any per-file analysis, and
the analyzer pass never writes to it — every traversal step leaves the
visitor's `func_to_file` unchanged, and after a completed run every
visitor still holds exactly the table produced by
`build_function_to_file_map` over the entire file set. -/
theorem c6_table_frozen_before_analysis :
    (∀ (st : ExecutionDiagram.VState) (s : Stmt),
      (ExecutionDiagram.visitStmt st s).func_to_file = st.func_to_file) ∧
    ∀ (files : List PyFile) (vs : List (String × ExecutionDiagram.VState)),
      ExecutionDiagram.analyze_project files = .ok vs →
      ∃ tbl, ExecutionDiagram.build_function_to_file_map files = .ok tbl ∧
        ∀ kv ∈ vs, kv.2.func_to_file = tbl := by
  constructor
  · intro st s
    exact (ExecutionDiagram.vinv_visitStmt s st).table_eq
  · intro files vs h
    obtain ⟨tbl, hb, _, hprops⟩ := ExecutionDiagram.analyze_project_ok_props files vs h
    exact ⟨tbl, hb, fun kv hkv => (hprops kv hkv).1⟩

/-- Witness for C6 on the single-file demo run. -/
theorem c6_table_frozen_witness :
    ExecutionDiagram.analyze_project [demoGoodFile] = .ok demoGoodRun ∧
    ∃ tbl, ExecutionDiagram.build_function_to_file_map [demoGoodFile] = .ok tbl ∧
      ∀ kv ∈ demoGoodRun, kv.2.func_to_file = tbl :=
  ⟨by rfl, c6_table_frozen_before_analysis.2 [demoGoodFile] demoGoodRun (by rfl)⟩

/-- C7: in both variants, every recorded call edge relates two distinct
files — the recording guard `callee_file != self.filename` excludes
self-loops at the moment of recording. -/
theorem c7_no_self_loop_call_edges :
    (∀ (files : List PyFile) (vs : List (String × ExecutionDiagram.VState)),
      ExecutionDiagram.analyze_project files = .ok vs →
      ∀ kv ∈ vs, ∀ e ∈ kv.2.function_calls, e.1 ≠ e.2) ∧
    (∀ (files : List PyFile) (vs : List (String × ExecutionDiagramIteration.ItState)),
      ExecutionDiagramIteration.analyze_project files = .ok vs →
      ∀ kv ∈ vs, ∀ e ∈ kv.2.calls_with_sequence, e.2.1 ≠ e.2.2) := by
  constructor
  · intro files vs h kv hkv e he
    obtain ⟨tbl, _, _, hprops⟩ := ExecutionDiagram.analyze_project_ok_props files vs h
    obtain ⟨_, _, _, hcalls⟩ := hprops kv hkv
    obtain ⟨h1, h2, _⟩ := hcalls e he
    rw [h1]
    exact fun hc => h2 hc.symm
  · intro files vs h kv hkv e he
    unfold ExecutionDiagramIteration.analyze_project at h
    cases hb : ExecutionDiagramIteration.build_function_to_file_map files with
    | error err => rw [hb] at h; exact absurd h (by simp)
    | ok tbl =>
        rw [hb] at h
        have hq := ExecutionDiagramIteration.analyze_files_it_allQ tbl
          (fun kv => ∀ e ∈ kv.2.calls_with_sequence, e.2.1 ≠ e.2.2)
          files [] 0 vs h (by simp) ?_ kv hkv e he
        · exact hq
        · intro fp c' st' _ hps'
          obtain ⟨_, _, _, _, hprops'⟩ :=
            ExecutionDiagramIteration.parse_file_seq_ok_props fp tbl c' st' hps'
          intro e' he'
          obtain ⟨h1, h2, _⟩ := hprops' e' he'
          rw [h1]
          exact fun hc => h2 hc.symm

/-- Witness for C7 on the `Worker` demo run. -/
theorem c7_no_self_loop_witness :
    ExecutionDiagram.analyze_project [workerDefFile "a.py", workerCallFile "b.py"] =
      .ok demoWorkerRun ∧
    ∀ kv ∈ demoWorkerRun, ∀ e ∈ kv.2.function_calls, e.1 ≠ e.2 :=
  ⟨by rfl, c7_no_self_loop_call_edges.1 [workerDefFile "a.py", workerCallFile "b.py"]
    demoWorkerRun (by rfl)⟩

/-- C5 counterexample: in the sequenced variant, two distinct call sites in
`b.py` resolving to `a.py` produce two separately numbered `calls` edges
between the same ordered pair of files — the claim that at most one
calls-kind edge per ordered pair exists in both variants is false. -/
theorem c5_counterexample_duplicate_pair :
    main_call_edges_seq demoDoubleCallFiles =
      [(1, "b.py", "a.py"), (2, "b.py", "a.py")] ∧
    ¬ ((main_call_edges_seq demoDoubleCallFiles).map
        (fun e => (e.2.1, e.2.2))).Nodup := by
  have h : main_call_edges_seq demoDoubleCallFiles =
      [(1, "b.py", "a.py"), (2, "b.py", "a.py")] := by
    simp [main_call_edges_seq, demoDoubleCallFiles,
      ExecutionDiagramIteration.analyze_project,
      ExecutionDiagramIteration.build_function_to_file_map,
      ExecutionDiagram.build_function_to_file_map,
      ExecutionDiagram.build_function_to_file_map_aux,
      walkList, stmtChildren, walkEntry, dictSet, dictGet, dictValues, dictMem,
      ExecutionDiagramIteration.analyze_files,
      ExecutionDiagramIteration.parse_file,
      ExecutionDiagramIteration.initVisitor,
      ExecutionDiagramIteration.visitStmts,
      ExecutionDiagramIteration.visitStmt,
      ExecutionDiagramIteration.visitExpr,
      ExecutionDiagramIteration.visitExprs,
      ExecutionDiagramIteration.process_call,
      ExecutionDiagramIteration.find_callee_file,
      get_func_name, get_attribute_name, collectParts, output_functions,
      setInsert, os_path_abspath,
      ExecutionDiagramIteration.call_edges,
      ExecutionDiagramIteration.all_calls_with_sequence,
      ExecutionDiagramIteration.sortBySeq,
      ExecutionDiagramIteration.insertBySeq]
  refine ⟨h, ?_⟩
  rw [h]
  decide

/-- C5 amended: in the plain variant the assembled graph contains at most
one `calls` edge per ordered pair of files (per-visitor sets deduplicate,
and distinct visitors emit edges with distinct caller files); in the
sequenced variant the renderer instead receives exactly one numbered edge
per recorded cross-file call site (a permutation of the recorded calls
whose callee is in the analyzed set), so the same ordered pair can occur
once per call site. -/
theorem c5_amended_edge_multiplicity :
    (∀ (files : List PyFile) (vs : List (String × ExecutionDiagram.VState)),
      ExecutionDiagram.analyze_project files = .ok vs →
      (ExecutionDiagram.call_edges vs).Nodup) ∧
    (∀ vs : List (String × ExecutionDiagramIteration.ItState),
      (ExecutionDiagramIteration.call_edges vs).Perm
        ((ExecutionDiagramIteration.all_calls_with_sequence vs).filter
          (fun e => e.2.2 ≠ "" ∧ dictMem vs e.2.2))) := by
  constructor
  · intro files vs h
    obtain ⟨tbl, _, hkeys, hprops⟩ := ExecutionDiagram.analyze_project_ok_props files vs h
    unfold ExecutionDiagram.call_edges
    rw [List.flatMap_def, List.nodup_flatten]
    constructor
    · intro l hl
      rw [List.mem_map] at hl
      obtain ⟨v, hv, hlv⟩ := hl
      rw [dictValues, List.mem_map] at hv
      obtain ⟨kv, hkv, hvkv⟩ := hv
      obtain ⟨_, _, hnd, _⟩ := hprops kv hkv
      rw [← hlv, ← hvkv]
      exact List.Sublist.nodup (List.filter_sublist _) hnd
    · rw [dictValues, List.map_map]
      refine List.pairwise_map.mpr ?_
      have hpk : vs.Pairwise (fun kv kv' => kv.1 ≠ kv'.1) :=
        List.pairwise_map.mp hkeys
      refine hpk.imp_of_mem ?_
      intro kv kv' hkv hkv' hne
      intro x hx hx'
      rw [Function.comp_apply, List.mem_filter] at hx hx'
      obtain ⟨_, _, _, hcalls⟩ := hprops kv hkv
      obtain ⟨_, _, _, hcalls'⟩ := hprops kv' hkv'
      have h1 := (hcalls x hx.1).1
      have h2 := (hcalls' x hx'.1).1
      exact hne (h1 ▸ h2 ▸ rfl)
  · intro vs
    unfold ExecutionDiagramIteration.call_edges
    exact List.Perm.filter _
      (ExecutionDiagramIteration.sortBySeq_perm
        (ExecutionDiagramIteration.all_calls_with_sequence vs))

/-- Witness for the amended C5 on the demo runs. -/
theorem c5_amended_witness :
    ExecutionDiagram.analyze_project [workerDefFile "a.py", workerCallFile "b.py"] =
      .ok demoWorkerRun ∧
    (ExecutionDiagram.call_edges demoWorkerRun).Nodup ∧
    (ExecutionDiagramIteration.call_edges demoDoubleCallRun).Perm
      ((ExecutionDiagramIteration.all_calls_with_sequence demoDoubleCallRun).filter
        (fun e => e.2.2 ≠ "" ∧ dictMem demoDoubleCallRun e.2.2)) :=
  ⟨by rfl,
   c5_amended_edge_multiplicity.1 [workerDefFile "a.py", workerCallFile "b.py"]
     demoWorkerRun (by rfl),
   c5_amended_edge_multiplicity.2 demoDoubleCallRun⟩

theorem build_aux_error_of_bad_file (files : List PyFile) :
    ∀ d : List (String × String), (∃ fp ∈ files, ∃ e, fp.parsed = .error e) →
    ∃ e, ExecutionDiagram.build_function_to_file_map_aux d files = .error e := by
  induction files with
  | nil =>
      intro d h
      obtain ⟨fp, hfp, _⟩ := h
      exact absurd hfp (by simp)
  | cons fp rest ih =>
      intro d h
      cases hm : fp.parsed with
      | error e =>
          exact ⟨e, by simp only [ExecutionDiagram.build_function_to_file_map_aux, hm]⟩
      | ok tree =>
          obtain ⟨fp', hfp', e', he'⟩ := h
          rcases List.mem_cons.mp hfp' with hh | hh
          · rw [hh] at he'
            rw [he'] at hm
            exact absurd hm (by simp)
          · obtain ⟨e, he⟩ := ih ((walkList tree).foldl (walkEntry fp.path) d)
              ⟨fp', hh, e', he'⟩
            exact ⟨e, by simp only [ExecutionDiagram.build_function_to_file_map_aux, hm, he]⟩

/-- C1 counterexample: a run over a file set containing one syntactically
invalid file does not catch the parse failure — the whole run aborts with
the propagated `SyntaxError`, and no analysis result is produced for the
other (valid) file. -/
theorem c1_counterexample_parse_failure_aborts :
    ExecutionDiagram.analyze_project [demoGoodFile, demoBadFile] =
      .error "invalid syntax (bad.py, line 1)" ∧
    ∀ vs, ExecutionDiagram.analyze_project [demoGoodFile, demoBadFile] ≠ .ok vs := by
  have h : ExecutionDiagram.analyze_project [demoGoodFile, demoBadFile] =
      .error "invalid syntax (bad.py, line 1)" := rfl
  exact ⟨h, fun vs hc => by rw [h] at hc; exact absurd hc (by simp)⟩

/-- C1 amended: for every run whose file set contains a file with
syntactically invalid source, the uncaught parse error propagates out of
the symbol-table build and aborts the whole run — no per-file report is
made, the file is not selectively excluded, and no other file's analysis
is delivered. -/
theorem c1_amended_parse_failure_aborts_run (files : List PyFile)
    (h : ∃ fp ∈ files, ∃ e, fp.parsed = .error e) :
    (∃ e, ExecutionDiagram.analyze_project files = .error e) ∧
    ∀ vs, ExecutionDiagram.analyze_project files ≠ .ok vs := by
  obtain ⟨e, he⟩ := build_aux_error_of_bad_file files [] h
  have ha : ExecutionDiagram.analyze_project files = .error e := by
    unfold ExecutionDiagram.analyze_project ExecutionDiagram.build_function_to_file_map
    rw [he]
  exact ⟨⟨e, ha⟩, fun vs hc => by rw [ha] at hc; exact absurd hc (by simp)⟩

/-- Witness for the amended C1 on the demo pair. -/
theorem c1_amended_witness :
    (∃ fp ∈ [demoGoodFile, demoBadFile], ∃ e, fp.parsed = .error e) ∧
    ((∃ e, ExecutionDiagram.analyze_project [demoGoodFile, demoBadFile] = .error e) ∧
     ∀ vs, ExecutionDiagram.analyze_project [demoGoodFile, demoBadFile] ≠ .ok vs) :=
  ⟨⟨demoBadFile, by simp, "invalid syntax (bad.py, line 1)", rfl⟩,
   c1_amended_parse_failure_aborts_run [demoGoodFile, demoBadFile]
     ⟨demoBadFile, by simp, "invalid syntax (bad.py, line 1)", rfl⟩⟩

/-- C2 counterexample: with `a.py` defining `class Worker` (method `run`)
and `b.py` containing the call `Worker().run()`, the plain-variant run
emits exactly the call edge `b.py → a.py` — the claim that no edge is
produced is false. -/
theorem c2_counterexample_edge_produced :
    main_call_edges [workerDefFile "a.py", workerCallFile "b.py"] =
      [("b.py", "a.py")] ∧
    ("b.py", "a.py") ∈ main_call_edges [workerDefFile "a.py", workerCallFile "b.py"] := by
  have hga : get_attribute_name (.attribute (.call (.name "Worker") []) "run") = "run" := rfl
  have h : main_call_edges [workerDefFile "a.py", workerCallFile "b.py"] =
      [("b.py", "a.py")] := by
    simp [main_call_edges, ExecutionDiagram.analyze_project,
      ExecutionDiagram.build_function_to_file_map,
      ExecutionDiagram.build_function_to_file_map_aux,
      walkList, stmtChildren, walkEntry, dictSet, dictGet, dictValues, dictMem,
      ExecutionDiagram.analyze_files, ExecutionDiagram.parse_file,
      ExecutionDiagram.initVisitor, ExecutionDiagram.visitStmts,
      ExecutionDiagram.visitStmt, ExecutionDiagram.visitExpr,
      ExecutionDiagram.visitExprs, ExecutionDiagram.process_call,
      ExecutionDiagram.find_callee_file, get_func_name, hga,
      output_functions, setInsert, os_path_abspath,
      ExecutionDiagram.call_edges, workerDefFile, workerCallFile]
  exact ⟨h, by rw [h]; exact List.mem_singleton.mpr rfl⟩

/-- C2 amended: for a run over a file A defining `class Worker` with method
`run` and a file B containing the call `Worker().run()` (distinct,
non-empty canonical paths), the analysis DOES produce the call edge B → A:
the attribute chain of the outer call resolves to the bare name `run`,
which the whole-tree symbol-table walk registered for A, and the inner
constructor call `Worker()` also resolves to A through the class-name
entry. -/
theorem c2_amended_edge_produced (pa pb : String) (hne : pa ≠ pb) (ha : pa ≠ "") :
    main_call_edges [workerDefFile pa, workerCallFile pb] = [(pb, pa)] := by
  have hga : get_attribute_name (.attribute (.call (.name "Worker") []) "run") = "run" := rfl
  simp [main_call_edges, ExecutionDiagram.analyze_project,
    ExecutionDiagram.build_function_to_file_map,
    ExecutionDiagram.build_function_to_file_map_aux,
    walkList, stmtChildren, walkEntry, dictSet, dictGet, dictValues, dictMem,
    ExecutionDiagram.analyze_files, ExecutionDiagram.parse_file,
    ExecutionDiagram.initVisitor, ExecutionDiagram.visitStmts,
    ExecutionDiagram.visitStmt, ExecutionDiagram.visitExpr,
    ExecutionDiagram.visitExprs, ExecutionDiagram.process_call,
    ExecutionDiagram.find_callee_file, get_func_name, hga,
    output_functions, setInsert, os_path_abspath,
    ExecutionDiagram.call_edges, workerDefFile, workerCallFile,
    hne, ha, Ne.symm hne]

/-- Witness for the amended C2 at the concrete paths `x.py`, `y.py`. -/
theorem c2_amended_witness :
    ("x.py" ≠ "y.py" ∧ "x.py" ≠ "") ∧
    main_call_edges [workerDefFile "x.py", workerCallFile "y.py"] = [("y.py", "x.py")] :=
  ⟨⟨by decide, by decide⟩,
   c2_amended_edge_produced "x.py" "y.py" (by decide) (by decide)⟩

theorem dictGet_foldl_methods (class_name file_path : String) (body : List Stmt)
    (d : List (String × String)) (k : String) :
    dictGet (body.foldl (fun acc body_item =>
        match body_item with
        | .funcDef method_name _ =>
            dictSet acc (class_name ++ "." ++ method_name) (os_path_abspath file_path)
        | _ => acc) d) k =
      if k ∈ body.filterMap (fun body_item =>
          match body_item with
          | .funcDef m _ => some (class_name ++ "." ++ m)
          | _ => none) then some (os_path_abspath file_path) else dictGet d k := by
  induction body generalizing d with
  | nil => simp
  | cons s rest ih =>
      cases s with
      | funcDef mn mb =>
          rw [List.foldl_cons, List.filterMap_cons]
          simp only [ih, dictGet_dictSet]
          by_cases hmem : k ∈ rest.filterMap (fun body_item =>
              match body_item with
              | .funcDef m _ => some (class_name ++ "." ++ m)
              | _ => none)
          · simp [hmem]
          · by_cases hk : class_name ++ "." ++ mn = k
            · simp [hmem, hk]
            · have : ¬ k = class_name ++ "." ++ mn := fun h => hk h.symm
              simp [hmem, hk, this]
      | classDef c b =>
          rw [List.foldl_cons, List.filterMap_cons]
          simp only [ih]
      | importS ns =>
          rw [List.foldl_cons, List.filterMap_cons]
          simp only [ih]
      | importFrom mo ns =>
          rw [List.foldl_cons, List.filterMap_cons]
          simp only [ih]
      | exprStmt e =>
          rw [List.foldl_cons, List.filterMap_cons]
          simp only [ih]

theorem dictGet_walkEntry (file_path : String) (d : List (String × String))
    (s : Stmt) (k : String) :
    dictGet (walkEntry file_path d s) k =
      if k ∈ stmtDefines s then some (os_path_abspath file_path) else dictGet d k := by
  cases s with
  | funcDef n body =>
      simp only [walkEntry, stmtDefines, dictGet_dictSet, List.mem_singleton]
      by_cases h : n = k
      · simp [h]
      · have : ¬ k = n := fun hh => h hh.symm
        simp [h, this]
  | classDef c body =>
      simp only [walkEntry, stmtDefines]
      rw [dictGet_foldl_methods]
      simp only [dictGet_dictSet, List.mem_cons]
      by_cases hmem : k ∈ body.filterMap (fun body_item =>
          match body_item with
          | .funcDef m _ => some (c ++ "." ++ m)
          | _ => none)
      · simp [hmem]
      · by_cases hk : c = k
        · simp [hmem, hk]
        · have : ¬ k = c := fun hh => hk hh.symm
          simp [hmem, hk, this]
  | importS ns => simp [walkEntry, stmtDefines]
  | importFrom mo ns => simp [walkEntry, stmtDefines]
  | exprStmt e => simp [walkEntry, stmtDefines]

theorem dictGet_foldl_walkEntry (file_path : String) (nodes : List Stmt)
    (d : List (String × String)) (k : String) :
    dictGet (nodes.foldl (walkEntry file_path) d) k =
      if k ∈ nodes.flatMap stmtDefines then some (os_path_abspath file_path)
      else dictGet d k := by
  induction nodes generalizing d with
  | nil => simp
  | cons s rest ih =>
      rw [List.foldl_cons, List.flatMap_cons]
      simp only [ih, dictGet_walkEntry, List.mem_append]
      by_cases h1 : k ∈ rest.flatMap stmtDefines
      · simp [h1]
      · by_cases h2 : k ∈ stmtDefines s <;> simp [h1, h2]

theorem build_aux_char (files : List PyFile) :
    ∀ (d tbl : List (String × String)),
    ExecutionDiagram.build_function_to_file_map_aux d files = .ok tbl →
    ∀ k, dictGet tbl k =
      match lastDefiner files k with
      | some f => some f
      | none => dictGet d k := by
  induction files with
  | nil =>
      intro d tbl h k
      simp only [ExecutionDiagram.build_function_to_file_map_aux,
        Except.ok.injEq] at h
      simp [← h, lastDefiner]
  | cons fp rest ih =>
      intro d tbl h k
      simp only [ExecutionDiagram.build_function_to_file_map_aux] at h
      cases hm : fp.parsed with
      | error e => rw [hm] at h; exact absurd h (by simp)
      | ok tree =>
          rw [hm] at h
          have hrec := ih _ tbl h k
          have hfk : fileKeys fp = moduleKeys tree := by
            simp [fileKeys, hm]
          rw [dictGet_foldl_walkEntry] at hrec
          simp only [lastDefiner, hfk]
          cases hl : lastDefiner rest k with
          | some f => rw [hrec, hl]
          | none =>
              rw [hrec, hl]
              by_cases hmem : k ∈ moduleKeys tree
              · simp only [moduleKeys] at hmem
                simp [hmem, moduleKeys]
              · simp only [moduleKeys] at hmem
                simp [hmem, moduleKeys]

theorem subStmts_eq_cons (s : Stmt) :
    subStmts s = s :: subStmtsList (stmtChildren s) := by
  cases s <;> rfl

theorem subStmtsList_append (a b : List Stmt) :
    subStmtsList (a ++ b) = subStmtsList a ++ subStmtsList b := by
  induction a with
  | nil => simp [subStmtsList]
  | cons s rest ih => simp [subStmtsList, ih]

theorem mem_walkList (todo : List Stmt) (x : Stmt) :
    x ∈ walkList todo ↔ x ∈ subStmtsList todo := by
  match todo with
  | [] => rw [walkList]; exact Iff.rfl
  | node :: rest =>
      rw [walkList, subStmtsList, subStmts_eq_cons node]
      have ih := mem_walkList (rest ++ stmtChildren node) x
      rw [List.mem_cons, ih, subStmtsList_append]
      simp only [List.mem_append, List.mem_cons]
      tauto
termination_by stmtListSize todo
decreasing_by
  simp only [stmtListSize, stmtListSize_append]
  exact lt_of_lt_of_le (Nat.add_lt_add_left (stmtChildren_size_lt _) _)
    (Nat.le_of_eq (Nat.add_comm _ _))

theorem mem_moduleKeys (m : PyModule) (k : String) :
    k ∈ moduleKeys m ↔ ∃ s ∈ subStmtsList m, k ∈ stmtDefines s := by
  unfold moduleKeys
  rw [List.mem_flatMap]
  constructor
  · rintro ⟨s, hs, hk⟩
    exact ⟨s, (mem_walkList m s).mp hs, hk⟩
  · rintro ⟨s, hs, hk⟩
    exact ⟨s, (mem_walkList m s).mpr hs, hk⟩

theorem mem_stmtDefines (s : Stmt) (k : String) :
    k ∈ stmtDefines s ↔
      ((∃ body, s = .funcDef k body) ∨ (∃ body, s = .classDef k body) ∨
       (∃ c body mn mb, s = .classDef c body ∧ .funcDef mn mb ∈ body ∧
         k = c ++ "." ++ mn)) := by
  cases s with
  | funcDef n body =>
      simp only [stmtDefines, List.mem_singleton]
      constructor
      · intro h
        exact Or.inl ⟨body, by rw [h]⟩
      · rintro (⟨b, hb⟩ | ⟨b, hb⟩ | ⟨c, b, mn, mb, hb, _, _⟩)
        · injection hb with h1 _
          exact h1.symm
        · exact absurd hb (by simp)
        · exact absurd hb (by simp)
  | classDef c body =>
      simp only [stmtDefines, List.mem_cons, List.mem_filterMap]
      constructor
      · rintro (h | ⟨bi, hbi, hmatch⟩)
        · exact Or.inr (Or.inl ⟨body, by rw [h]⟩)
        · cases bi with
          | funcDef mn mb =>
              simp only [Option.some.injEq] at hmatch
              exact Or.inr (Or.inr ⟨c, body, mn, mb, rfl, hbi, hmatch.symm⟩)
          | classDef c' b' => exact absurd hmatch (by simp)
          | importS ns => exact absurd hmatch (by simp)
          | importFrom mo ns => exact absurd hmatch (by simp)
          | exprStmt e => exact absurd hmatch (by simp)
      · rintro (⟨b, hb⟩ | ⟨b, hb⟩ | ⟨c', b', mn, mb, hb, hmem, hk⟩)
        · exact absurd hb (by simp)
        · injection hb with h1 _
          exact Or.inl h1.symm
        · injection hb with h1 h2
          subst h1; subst h2
          exact Or.inr ⟨.funcDef mn mb, hmem, by rw [hk]⟩
  | importS ns =>
      simp only [stmtDefines, List.not_mem_nil, false_iff]
      rintro (⟨b, hb⟩ | ⟨b, hb⟩ | ⟨c, b, mn, mb, hb, _, _⟩) <;> exact absurd hb (by simp)
  | importFrom mo ns =>
      simp only [stmtDefines, List.not_mem_nil, false_iff]
      rintro (⟨b, hb⟩ | ⟨b, hb⟩ | ⟨c, b, mn, mb, hb, _, _⟩) <;> exact absurd hb (by simp)
  | exprStmt e =>
      simp only [stmtDefines, List.not_mem_nil, false_iff]
      rintro (⟨b, hb⟩ | ⟨b, hb⟩ | ⟨c, b, mn, mb, hb, _, _⟩) <;> exact absurd hb (by simp)

/-- C3 counterexample: for a file containing `class C` with method `m`, the
symbol table maps the bare name `m` to the file (third entry), although `m`
is a method and not a top-level function or class — the claim that bare
names are entered only for top-level functions and classes, and never for
methods, is false. -/
theorem c3_counterexample_method_bare_name :
    ExecutionDiagram.build_function_to_file_map [demoClassFile] =
      .ok [("C", "c.py"), ("C.m", "c.py"), ("m", "c.py")] := by
  simp [ExecutionDiagram.build_function_to_file_map,
    ExecutionDiagram.build_function_to_file_map_aux, demoClassFile,
    walkList, stmtChildren, walkEntry, dictSet, os_path_abspath]

/-- C3 amended: the symbol table maps a name to a file exactly per
last-writer-wins over the files' defined-name sets, where a file's
defined names are: the bare name of every function definition at any
nesting depth (top-level functions, methods, and nested functions alike,
because the build walks the whole tree), every class name, and
`Class.Method` for every method declared directly in a class body. -/
theorem c3_amended_symbol_table_contents :
    (∀ (files : List PyFile) (tbl : List (String × String)),
      ExecutionDiagram.build_function_to_file_map files = .ok tbl →
      ∀ k, dictGet tbl k = lastDefiner files k) ∧
    (∀ (m : PyModule) (k : String),
      k ∈ moduleKeys m ↔ ∃ s ∈ subStmtsList m,
        ((∃ body, s = .funcDef k body) ∨ (∃ body, s = .classDef k body) ∨
         (∃ c body mn mb, s = .classDef c body ∧ .funcDef mn mb ∈ body ∧
           k = c ++ "." ++ mn))) := by
  constructor
  · intro files tbl h k
    have hc := build_aux_char files [] tbl h k
    cases hl : lastDefiner files k with
    | some f => rw [hc, hl]
    | none => rw [hc, hl]; rfl
  · intro m k
    rw [mem_moduleKeys]
    simp only [mem_stmtDefines]

/-- Witness for the amended C3 on the single-file demo: the table built
from `c.py` answers `m ↦ c.py`, as `lastDefiner` predicts. -/
theorem c3_amended_witness :
    ExecutionDiagram.build_function_to_file_map [demoClassFile] =
      .ok [("C", "c.py"), ("C.m", "c.py"), ("m", "c.py")] ∧
    dictGet [("C", "c.py"), ("C.m", "c.py"), ("m", "c.py")] "m" =
      lastDefiner [demoClassFile] "m" ∧
    lastDefiner [demoClassFile] "m" = some "c.py" := by
  have hb : ExecutionDiagram.build_function_to_file_map [demoClassFile] =
      .ok [("C", "c.py"), ("C.m", "c.py"), ("m", "c.py")] := by
    simp [ExecutionDiagram.build_function_to_file_map,
      ExecutionDiagram.build_function_to_file_map_aux, demoClassFile,
      walkList, stmtChildren, walkEntry, dictSet, os_path_abspath]
  refine ⟨hb, c3_amended_symbol_table_contents.1 [demoClassFile] _ hb "m", ?_⟩
  simp [lastDefiner, fileKeys, demoClassFile, moduleKeys, walkList,
    stmtChildren, stmtDefines, os_path_abspath]

/-- C8: an import edge is added only for an import whose module name the
resolver maps to a source file that belongs to the analyzed set — so any
module import that does not resolve, or resolves outside the set,
contributes no edge; and when no import of the run resolves into the set, the assembler
adds no import edge at all.  The assembly is a total function (the
`ModuleNotFoundError` of the resolver is caught inside
`find_source_file`), so no error is raised. -/
theorem c8_unresolved_imports_silently_dropped :
    (∀ (find_spec : ExecutionDiagram.FindSpec)
       (vs : List (String × ExecutionDiagram.VState)) (i f : String),
      (i, f) ∈ ExecutionDiagram.import_edges find_spec vs →
      ∃ v ∈ dictValues vs, ∃ m, (i, m) ∈ v.imports ∧
        ExecutionDiagram.find_source_file find_spec m = some f ∧ dictMem vs f) ∧
    (∀ (find_spec : ExecutionDiagram.FindSpec)
       (vs : List (String × ExecutionDiagram.VState)),
      (∀ v ∈ dictValues vs, ∀ im ∈ v.imports, ∀ f,
        ExecutionDiagram.find_source_file find_spec im.2 = some f →
          ¬ dictMem vs f) →
      ExecutionDiagram.import_edges find_spec vs = []) := by
  constructor
  · intro find_spec vs i f hmem
    unfold ExecutionDiagram.import_edges at hmem
    rw [List.mem_flatMap] at hmem
    obtain ⟨v, hv, hedge⟩ := hmem
    rw [List.mem_filterMap] at hedge
    obtain ⟨im, him, hres⟩ := hedge
    split at hres
    next imported_file heq =>
        split at hres
        next hc =>
            have hinj := Option.some.inj hres
            have h1 : im.1 = i := congrArg Prod.fst hinj
            have h2 : imported_file = f := congrArg Prod.snd hinj
            refine ⟨v, hv, im.2, ?_, ?_, ?_⟩
            · rw [show im = (i, im.2) from Prod.ext h1 rfl] at him
              exact him
            · rw [← h2]
              exact heq
            · rw [← h2]
              exact hc.2
        next hc => exact absurd hres (by simp)
    next heq => exact absurd hres (by simp)
  · intro find_spec vs h
    unfold ExecutionDiagram.import_edges
    rw [List.flatMap_eq_nil_iff]
    intro v hv
    rw [List.filterMap_eq_nil_iff]
    intro im him
    split
    next imported_file heq =>
        have hnm := h v hv im him imported_file heq
        rw [if_neg (fun hc => hnm hc.2)]
    next heq => rfl

/-- Witness for C8: a run over a file importing an unresolvable module
yields zero import edges and no failure. -/
theorem c8_unresolved_imports_witness :
    ExecutionDiagram.analyze_project [demoImportFile] = .ok demoImportRun ∧
    ExecutionDiagram.import_edges findSpecNone demoImportRun = [] :=
  ⟨by rfl,
   c8_unresolved_imports_silently_dropped.2 findSpecNone demoImportRun
     (fun v _ im _ f hf => absurd hf (by
       simp [ExecutionDiagram.find_source_file, findSpecNone]))⟩

theorem collectParts_foldl (parts : List String) (e : Expr) (acc : List String) :
    collectParts (parts.foldl .attribute e) acc = collectParts e (parts ++ acc) := by
  induction parts generalizing e acc with
  | nil => rfl
  | cons p ps ih =>
      rw [List.foldl_cons, ih]
      rfl

/-- C9: call-name resolution behaves as specified on the shapes the claim
covers — a bare identifier call resolves to that identifier; a dotted
attribute-chain call with an identifier base resolves to the chain's parts
joined with `.` from the base outward; and the symbol-table lookup is an
exact, case-sensitive string match: it returns a file only for an entry
whose key equals the queried name character for character, and fails when
no key equals it (so `foo` never matches `Foo` or `module.foo`). -/
theorem c9_resolution_exact_match :
    (∀ (id : String) (args : List Expr),
      get_func_name (.call (.name id) args) = some id) ∧
    (∀ (base : String) (parts : List String) (args : List Expr),
      get_func_name (.call (mkChain base parts) args) =
        some (String.intercalate "." (base :: parts))) ∧
    (∀ (st : ExecutionDiagram.VState) (n f : String),
      ExecutionDiagram.find_callee_file st n = some f → (n, f) ∈ st.func_to_file) ∧
    (∀ (st : ExecutionDiagram.VState) (n : String),
      n ∉ dictKeys st.func_to_file →
        ExecutionDiagram.find_callee_file st n = none) := by
  refine ⟨fun id args => rfl, ?_, ?_, ?_⟩
  · intro base parts args
    induction parts using List.reverseRecOn with
    | nil => rfl
    | append_singleton l a _ =>
        have hchain : mkChain base (l ++ [a]) = .attribute (mkChain base l) a := by
          unfold mkChain
          rw [List.foldl_append]
          rfl
        rw [hchain]
        show some (get_attribute_name (.attribute (mkChain base l) a)) = _
        unfold get_attribute_name mkChain
        rw [show collectParts ((l.foldl Expr.attribute (Expr.name base)).attribute a) [] =
            collectParts (l.foldl Expr.attribute (Expr.name base)) [a] from rfl]
        rw [collectParts_foldl]
        rfl
  · intro st n f h
    exact dictGet_mem st.func_to_file n f h
  · intro st n h
    exact dictGet_eq_none_of_not_mem st.func_to_file n h

/-- Witness for C9: concrete resolutions, including that `foo` matches
neither `Foo` nor `module.foo` in a table containing only those keys. -/
theorem c9_resolution_witness :
    get_func_name (.call (.name "foo") []) = some "foo" ∧
    get_func_name (.call (mkChain "a" ["b", "c"]) []) =
      some (String.intercalate "." ["a", "b", "c"]) ∧
    String.intercalate "." ["a", "b", "c"] = "a.b.c" ∧
    ("foo" ∉ dictKeys [("Foo", "f.py"), ("module.foo", "g.py")] ∧
      ExecutionDiagram.find_callee_file
        (ExecutionDiagram.initVisitor "z.py" [("Foo", "f.py"), ("module.foo", "g.py")])
        "foo" = none) :=
  ⟨c9_resolution_exact_match.1 "foo" [],
   c9_resolution_exact_match.2.1 "a" ["b", "c"] [],
   rfl,
   by decide,
   c9_resolution_exact_match.2.2.2
     (ExecutionDiagram.initVisitor "z.py" [("Foo", "f.py"), ("module.foo", "g.py")])
     "foo" (by decide)⟩
